import Mathlib

/-!
Verification of the interpolatable core (interpolatable-lib) against its
specification.  The Rust sources under interpolatable-lib/src are shallowly
embedded here: f64 values become rationals, fallible or panicking code
returns Option (with none standing for a panic), and the two external
collaborators of the core (the greencurves statistics crate and the munkres
assignment crate) are modelled, respectively, by an explicit parameter
bundle of real-valued operations and by an exact brute-force minimum-cost
assignment that returns the optimal row-ascending assignment.
-/

set_option autoImplicit false

namespace Interp

/-- A 2-D point or vector, as in kurbo. Coordinates are rationals standing
for the f64 coordinates of the source. -/
abbrev V2 := ℚ × ℚ

/-- GlyfPoint from lib.rs: a point plus the is_control flag (true = on-curve
node, mirroring GlyfPoint::oncurve which sets is_control to true). -/
structure GlyfPoint where
  pt : V2
  isControl : Bool
  deriving DecidableEq, Repr

/-- Bezier path element, as in kurbo::PathEl. -/
inductive PathEl where
  | moveTo (p : V2)
  | lineTo (p : V2)
  | quadTo (p0 p1 : V2)
  | curveTo (p0 p1 p2 : V2)
  | closePath
  deriving DecidableEq, Repr

/-- A Bezier path: a list of elements (kurbo::BezPath). -/
abbrev BezPath := List PathEl

/-- Characteristic from isomorphism.rs: one rotational/reflectional
alignment of a contour characteristic vector. -/
structure Characteristic where
  rotatedList : List V2
  rotation : ℕ
  reverse : Bool
  deriving DecidableEq, Repr

/-- Isomorphisms from isomorphism.rs: the list of characteristics of one
contour. -/
abbrev Isomorphisms := List Characteristic

/-- Glyph from lib.rs: the per-master glyph summary, with the fields read
by run_tests.  The green_stats/control_stats fields are omitted: run_tests
only reads the descriptor vectors derived from them. -/
structure Glyph where
  masterName : String := ""
  masterIndex : ℕ := 0
  curves : List BezPath := []
  greenVectors : List (List ℚ) := []
  controlVectors : List (List ℚ) := []
  points : List (List GlyfPoint) := []
  isomorphisms : List Isomorphisms := []
  deriving DecidableEq, Repr

/-- ProblemDetails from problems.rs. -/
inductive ProblemDetails where
  | pathCount (count1 count2 : ℕ)
  | nodeCount (count1 count2 : ℕ)
  | nodeIncompatibility (isControl1 isControl2 : Bool)
  | contourOrder (order1 order2 : List ℕ)
  | wrongStartPoint (proposedPoint : ℕ) (reverse : Bool)
  | overweight (value1 value2 : ℚ)
  | underweight (value1 value2 : ℚ)
  | kink
  deriving DecidableEq, Repr

/-- Problem from problems.rs. -/
structure Problem where
  master1Name : String
  master2Name : String
  master1Index : ℕ
  master2Index : ℕ
  details : ProblemDetails
  tolerance : Option ℚ
  contour : Option ℕ
  node : Option ℕ
  deriving DecidableEq, Repr

namespace Problem

/-- Problem::path_count. -/
def mkPathCount (g1 g2 : Glyph) (count1 count2 : ℕ) : Problem :=
  { master1Name := g1.masterName, master2Name := g2.masterName
    master1Index := g1.masterIndex, master2Index := g2.masterIndex
    tolerance := none, contour := none, node := none
    details := .pathCount count1 count2 }

/-- Problem::node_count. -/
def mkNodeCount (g1 g2 : Glyph) (pathIndex count1 count2 : ℕ) : Problem :=
  { master1Name := g1.masterName, master2Name := g2.masterName
    master1Index := g1.masterIndex, master2Index := g2.masterIndex
    tolerance := none, contour := some pathIndex, node := none
    details := .nodeCount count1 count2 }

/-- Problem::node_incompatibility. -/
def mkNodeIncompat (g1 g2 : Glyph) (contour node : ℕ) (c1 c2 : Bool) : Problem :=
  { master1Name := g1.masterName, master2Name := g2.masterName
    master1Index := g1.masterIndex, master2Index := g2.masterIndex
    tolerance := none, contour := some contour, node := some node
    details := .nodeIncompatibility c1 c2 }

/-- Problem::contour_order. -/
def mkContourOrder (g1 g2 : Glyph) (tol : ℚ) (order1 order2 : List ℕ) : Problem :=
  { master1Name := g1.masterName, master2Name := g2.masterName
    master1Index := g1.masterIndex, master2Index := g2.masterIndex
    tolerance := some tol, contour := none, node := none
    details := .contourOrder order1 order2 }

/-- Problem::wrong_start_point. -/
def mkWrongStartPoint (g1 g2 : Glyph) (tol : ℚ) (contour proposedPoint : ℕ)
    (reverse : Bool) : Problem :=
  { master1Name := g1.masterName, master2Name := g2.masterName
    master1Index := g1.masterIndex, master2Index := g2.masterIndex
    tolerance := some tol, contour := some contour, node := none
    details := .wrongStartPoint proposedPoint reverse }

/-- Problem::overweight. -/
def mkOverweight (g1 g2 : Glyph) (contour : ℕ) (tol value1 value2 : ℚ) : Problem :=
  { master1Name := g1.masterName, master2Name := g2.masterName
    master1Index := g1.masterIndex, master2Index := g2.masterIndex
    tolerance := some tol, contour := some contour, node := none
    details := .overweight value1 value2 }

/-- Problem::underweight. -/
def mkUnderweight (g1 g2 : Glyph) (contour : ℕ) (tol value1 value2 : ℚ) : Problem :=
  { master1Name := g1.masterName, master2Name := g2.masterName
    master1Index := g1.masterIndex, master2Index := g2.masterIndex
    tolerance := some tol, contour := some contour, node := none
    details := .underweight value1 value2 }

/-- Problem::kink. -/
def mkKink (g1 g2 : Glyph) (contour node : ℕ) (tol : ℚ) : Problem :=
  { master1Name := g1.masterName, master2Name := g2.masterName
    master1Index := g1.masterIndex, master2Index := g2.masterIndex
    tolerance := some tol, contour := some contour, node := some node
    details := .kink }

end Problem

/-- Bundle of real-valued operations that the core takes from f64 / the
greencurves crate and that have no exact rational counterpart: square root,
atan2, cosine and sine (used only inside the starting-point rescue branch),
the value of pi, and the first component of stats_to_vectors applied to the
green statistics of a midpoint path (weight.rs line 19; greencurves is an
external crate).  Every embedded function is parametrised by such a bundle;
no claim below depends on the numeric values these produce. -/
structure RealOps where
  sqrtF : ℚ → ℚ
  atan2F : ℚ → ℚ → ℚ
  cosF : ℚ → ℚ
  sinF : ℚ → ℚ
  piV : ℚ
  midSz : BezPath → ℚ

/-- A simple concrete operation bundle used to instantiate witnesses. -/
def ops0 : RealOps :=
  { sqrtF := fun q => q, atan2F := fun _ _ => 0, cosF := fun _ => 1
    sinF := fun _ => 0, piV := 0, midSz := fun _ => 0 }

/-- vdiff_hypot2 for Vec of f64 (utils.rs): sum of squared differences over
the zip of the two vectors. -/
def vdiffQ (a b : List ℚ) : ℚ :=
  ((a.zip b).map (fun p => (p.1 - p.2) ^ 2)).sum

/-- vdiff_hypot2 for Vec of Vec2 (utils.rs): sum of hypot2 of the pointwise
differences over the zip. -/
def vdiffV (a b : List V2) : ℚ :=
  ((a.zip b).map (fun p => (p.1.1 - p.2.1) ^ 2 + (p.1.2 - p.2.2) ^ 2)).sum

/-- Point::lerp p q 0.5 (kurbo): the midpoint. -/
def lerpHalf (p q : V2) : V2 :=
  (p.1 + (q.1 - p.1) * (1 / 2), p.2 + (q.2 - p.2) * (1 / 2))

/-- One step of lerp_curve (utils.rs lines 17-38): midpoint of two path
elements of the same kind, none on a kind mismatch. -/
def lerpEl : PathEl → PathEl → Option PathEl
  | .moveTo p0, .moveTo p1 => some (.moveTo (lerpHalf p0 p1))
  | .lineTo p0, .lineTo p1 => some (.lineTo (lerpHalf p0 p1))
  | .quadTo p0 p1, .quadTo q0 q1 => some (.quadTo (lerpHalf p0 q0) (lerpHalf p1 q1))
  | .curveTo p0 p1 p2, .curveTo q0 q1 q2 =>
      some (.curveTo (lerpHalf p0 q0) (lerpHalf p1 q1) (lerpHalf p2 q2))
  | .closePath, .closePath => some .closePath
  | _, _ => none

/-- lerp_curve (utils.rs): walk the zip of the two element lists (the Rust
iterator zip stops at the shorter list), kind-matching elementwise; a kind
mismatch aborts with none. -/
def lerpCurve : BezPath → BezPath → Option BezPath
  | [], _ => some []
  | _ :: _, [] => some []
  | e0 :: r0, e1 :: r1 =>
      match lerpEl e0 e1 with
      | none => none
      | some e => match lerpCurve r0 r1 with
        | none => none
        | some r => some (e :: r)

/-- Modelled from the spec: midpoint_curve of section 4.1, which returns
none as soon as the two paths differ in length or in element kind at any
position, and otherwise the elementwise 0.5 interpolation.  This is the
spec-side definition that lerp_curve is compared against. -/
def specMidpointCurve : BezPath → BezPath → Option BezPath
  | [], [] => some []
  | [], _ :: _ => none
  | _ :: _, [] => none
  | e0 :: r0, e1 :: r1 =>
      match lerpEl e0 e1 with
      | none => none
      | some e => match specMidpointCurve r0 r1 with
        | none => none
        | some r => some (e :: r)

/-- test_compatibility (basiccompat.rs): contour count, per-contour point
count and per-point is_control comparisons. -/
def testCompatibility (g1 g2 : Glyph) : List Problem :=
  let pathProbs :=
    if g1.curves.length ≠ g2.curves.length then
      [Problem.mkPathCount g1 g2 g1.curves.length g2.curves.length]
    else []
  let nodeProbs :=
    (g1.points.zip g2.points).enum.flatMap (fun pr =>
      match pr with
      | (pathIndex, p1, p2) =>
        (if p1.length ≠ p2.length then
          [Problem.mkNodeCount g1 g2 pathIndex p1.length p2.length]
         else []) ++
        (p1.zip p2).enum.filterMap (fun nq =>
          match nq with
          | (nodeIndex, q1, q2) =>
            if q1.isControl ≠ q2.isControl then
              some (Problem.mkNodeIncompat g1 g2 pathIndex nodeIndex q1.isControl q2.isControl)
            else none))
  pathProbs ++ nodeProbs

/-- Cost of an assignment sigma (row i matched to column sigma i) against a
cost function. -/
def permCost (cost : ℕ → ℕ → ℚ) (σ : List ℕ) : ℚ :=
  (σ.enum.map (fun p => cost p.1 p.2)).sum

/-- Model of munkres::solve_assignment: an exact minimum-cost assignment on
an n by n cost matrix, obtained by brute force over all permutations and
returned row-ascending as (row, column) positions, as the munkres crate
returns its starred zeros.  The fold starts from the identity permutation,
so the result never costs more than the identity assignment. -/
def bestPerm (n : ℕ) (cost : ℕ → ℕ → ℚ) : List ℕ :=
  (List.range n).permutations.foldl
    (fun acc σ => if permCost cost σ < permCost cost acc then σ else acc)
    (List.range n)

/-- The assignment returned by the modelled solver: row i paired with
column (bestPerm n cost) i, rows ascending. -/
def bruteAssignment (n : ℕ) (cost : ℕ → ℕ → ℚ) : List (ℕ × ℕ) :=
  (List.range n).zip (bestPerm n cost)

/-- matching_for_vectors (contourorder.rs): build the squared-distance cost
matrix, solve the assignment, and return the matching together with its
cost and the identity (trace) cost.  The Rust assert on equal lengths is a
panic, modelled as none. -/
def matchingForVectors (m0 m1 : List (List ℚ)) :
    Option (List (ℕ × ℕ) × ℚ × ℚ) :=
  if m0.length ≠ m1.length then none
  else
    let n := m0.length
    let cost := fun i j => vdiffQ (m0.getD i []) (m1.getD j [])
    let matching := bruteAssignment n cost
    let matchingCost := (matching.map (fun p => cost p.1 p.2)).sum
    let identityCost := ((List.range n).map (fun i => cost i i)).sum
    some (matching, matchingCost, identityCost)

/-- Negate the first element of a descriptor vector (contourorder.rs lines
32-36 and 48-52); indexing an empty vector is a panic. -/
def negFirst : List ℚ → Option (List ℚ)
  | [] => none
  | x :: r => some ((-x) :: r)

/-- Map negFirst over a whole descriptor list, propagating the panic. -/
def negFirstAll : List (List ℚ) → Option (List (List ℚ))
  | [] => some []
  | v :: r =>
    match negFirst v, negFirstAll r with
    | some w, some s => some (w :: s)
    | _, _ => none

/-- test_contour_order (contourorder.rs): early exit when there is at most
one contour; four assignment solves (control, green, and both against the
sign-reversed second glyph), each compared against its identity cost; then
the matching with the smaller (worse) cost ratio of the two primary solves
is selected with its ratio. -/
def testContourOrder (g1 g2 : Glyph) : Option (ℚ × Option (List (ℕ × ℕ))) :=
  let n := g1.controlVectors.length
  if n ≤ 1 then some (1, none)
  else
    match matchingForVectors g1.controlVectors g2.controlVectors with
    | none => none
    | some (mc, mcc, icc) =>
      if mcc = icc then some (1, none)
      else
        match matchingForVectors g1.greenVectors g2.greenVectors with
        | none => none
        | some (mg, mcg, icg) =>
          if mcg = icg then some (1, none)
          else
            match negFirstAll g2.controlVectors with
            | none => none
            | some g2cr =>
              match matchingForVectors g1.controlVectors g2cr with
              | none => none
              | some (_, mccr, iccr) =>
                if mccr = iccr then some (1, none)
                else
                  match negFirstAll g2.greenVectors with
                  | none => none
                  | some g2gr =>
                    match matchingForVectors g1.greenVectors g2gr with
                    | none => none
                    | some (_, mcgr, icgr) =>
                      if mcgr = icgr then some (1, none)
                      else
                        let chosen :=
                          if mcc / icc < mcg / icg then (mc, mcc, icc)
                          else (mg, mcg, icg)
                        let t :=
                          if chosen.2.2 ≠ 0 then chosen.2.1 / chosen.2.2 else 1
                        some (t, some chosen.1)

/-- Matching::reorder (utils.rs lines 68-74): for each position of the
matching, pick data at the position's row; an out-of-bounds row is a panic. -/
def reorderM {α : Type} (m : List (ℕ × ℕ)) (data : List α) : Option (List α) :=
  match m with
  | [] => some []
  | p :: rest =>
    match data[p.1]?, reorderM rest data with
    | some x, some xs => some (x :: xs)
    | _, _ => none

/-- Helper for the Rust Iterator::min_by over (index, cost) pairs: keeps the
first index attaining the minimum, as Rust's min_by does. -/
def minGo (bi : ℕ) (bv : ℚ) (j : ℕ) : List ℚ → ℕ × ℚ
  | [] => (bi, bv)
  | x :: xs => if x < bv then minGo j x (j + 1) xs else minGo bi bv (j + 1) xs

/-- Iterator::min_by with total_cmp over an enumerated cost list; none on an
empty list (the Rust version returns None there). -/
def minByIdx : List ℚ → Option (ℕ × ℚ)
  | [] => none
  | x :: xs => some (minGo 0 x 1 xs)

/-- The reported tolerance of the starting-point test (startingpoint.rs
lines 112-116): min_cost / first_cost, or 1.0 when first_cost is zero. -/
def spTol (minCost firstCost : ℚ) : ℚ :=
  if firstCost ≠ 0 then minCost / firstCost else 1

/-- The affine transform rotate(theta).then_scale_non_uniform(sx, sy) built
in the rescue branch of test_starting_point. -/
structure Transform where
  co : ℚ
  si : ℚ
  sx : ℚ
  sy : ℚ

/-- Apply the rotation-then-scale transform to a point. -/
def applyT (t : Transform) (p : V2) : V2 :=
  (t.sx * (t.co * p.1 - t.si * p.2), t.sy * (t.si * p.1 + t.co * p.2))

/-- The covariance-ellipse transform recovered from one descriptor vector
(startingpoint.rs lines 54-77); indexing a too-short vector is a panic. -/
def mkTransform (ops : RealOps) (v : List ℚ) : Option Transform :=
  match v[3]?, v[4]?, v[5]?, v[0]? with
  | some v3, some v4, some v5, some v0 =>
    let sdx := v3 * (1 / 2)
    let sdy := v4 * (1 / 2)
    let corr := if v5 ≠ 0 then v5 / |v0| else v5
    let a := sdx * sdx
    let c := sdy * sdy
    let b := corr * sdx * sdy
    let delta := ops.sqrtF (((a - c) * (1 / 2)) ^ 2 + b * b)
    let l1 := (a + c) * (1 / 2) + delta
    let l2 := (a + c) * (1 / 2) - delta
    let th :=
      if b ≠ 0 then ops.atan2F (l1 - a) b
      else if a < c then ops.piV * (1 / 2)
      else 0
    some { co := ops.cosF th, si := ops.sinF th
           sx := ops.sqrtF l1, sy := ops.sqrtF l2 }
  | _, _, _, _ => none

/-- test_starting_point (startingpoint.rs).  The outer Option is a panic
(the unsigned subtraction num_points - leeway in a debug build, or indexing
an empty rotated list); the inner Option is the Rust function's own Option
return, where question-mark early exits yield none.  On success the triple
is (this_tolerance, min_index, reverse) exactly as the source returns it. -/
def testStartingPoint (ops : RealOps) (gb : Glyph) (iso0 iso1 : Isomorphisms)
    (m0v m1v : List (List ℚ)) (ix : ℕ) (tol : ℚ) :
    Option (Option (ℚ × ℕ × Bool)) :=
  match iso0[0]? with
  | none => some none
  | some c0 =>
    let costs := iso1.map (fun c1 => vdiffV c0.rotatedList c1.rotatedList)
    match minByIdx costs with
    | none => some none
    | some (minIdx0, minCost0) =>
      match costs[0]? with
      | none => some none
      | some fc0 =>
        match iso1[minIdx0]? with
        | none => some none
        | some cmin =>
          let proposed := cmin.rotation
          let rev := cmin.reverse
          if minCost0 < fc0 * tol then
            match gb.points[ix]? with
            | none => some none
            | some bpts =>
              let numPoints := bpts.length
              let leeway := 3
              match (if rev then some false
                     else if proposed ≤ leeway then some true
                     else if leeway ≤ numPoints then
                       some (decide (numPoints - leeway ≤ proposed))
                     else none : Option Bool) with
              | none => none
              | some false => some (some (spTol minCost0 fc0, minIdx0, rev))
              | some true =>
                match m0v[ix]? with
                | none => some none
                | some v0 =>
                  match m1v[ix]? with
                  | none => some none
                  | some v1 =>
                    match mkTransform ops v0, mkTransform ops v1 with
                    | some t0, some t1 =>
                      match c0.rotatedList with
                      | [] => none
                      | x :: restC0 =>
                        let newC0 := applyT t0 x :: restC0
                        let newIso1 := iso1.map (fun c1 =>
                          { c1 with rotatedList := c1.rotatedList.map (applyT t1) })
                        let costs2 := newIso1.map (fun c1 => vdiffV newC0 c1.rotatedList)
                        match costs2[0]? with
                        | none => some none
                        | some fc1 =>
                          match minByIdx costs2 with
                          | none => some none
                          | some (minIdx1, minCost1) =>
                            some (some (spTol minCost1 fc1, minIdx1, rev))
                    | _, _ => none
          else some (some (spTol minCost0 fc0, minIdx0, rev))

/-- test_over_underweight (weight.rs).  The early return fires when the two
signed-size terms have the same sign predicate value; otherwise the
overweight and underweight conditions are tested against the midpoint
size.  Indexing an empty descriptor vector is a panic (none). -/
def testOverUnderweight (ops : RealOps) (ga gb : Glyph) (m0v m1v : List ℚ)
    (mid : BezPath) (tol : ℚ) (ix : ℕ) : Option (List Problem) :=
  match m0v[0]?, m1v[0]? with
  | some a0, some b0 =>
    if (decide (a0 < 0)) = (decide (b0 < 0)) then some []
    else
      let midStat0 := ops.midSz mid
      let size0 := a0 * a0
      let size1 := b0 * b0
      let midSize := midStat0 * midStat0
      let eps : ℚ := 1 / 100000
      let overProbs :=
        let expected := max size0 size1
        if eps + expected / tol < midSize then
          [Problem.mkOverweight ga gb ix
            (if midSize = 0 then 0 else expected / midSize) size0 size1]
        else []
      let underProbs :=
        let expected := ops.sqrtF (size0 * size1)
        if expected * tol > midSize + eps then
          [Problem.mkUnderweight ga gb ix
            (if expected = 0 then 0 else midSize / expected) size0 size1]
        else []
      some (overProbs ++ underProbs)
  | _, _ => none

/-- Modelled from the spec, section 4.7: the weight test as the spec states
it, activating exactly when the signs of descriptor0[0] and descriptor1[0]
match, with the same overweight and underweight conditions and payloads.
This is the spec-side definition the source test is compared against. -/
def specWeightProblems (ops : RealOps) (ga gb : Glyph) (m0v m1v : List ℚ)
    (mid : BezPath) (tol : ℚ) (ix : ℕ) : List Problem :=
  match m0v[0]?, m1v[0]? with
  | some a0, some b0 =>
    if (decide (a0 < 0)) = (decide (b0 < 0)) then
      let midStat0 := ops.midSz mid
      let size0 := a0 * a0
      let size1 := b0 * b0
      let midSize := midStat0 * midStat0
      let eps : ℚ := 1 / 100000
      (let expected := max size0 size1
       if eps + expected / tol < midSize then
         [Problem.mkOverweight ga gb ix
           (if midSize = 0 then 0 else expected / midSize) size0 size1]
       else []) ++
      (let expected := ops.sqrtF (size0 * size1)
       if expected * tol > midSize + eps then
         [Problem.mkUnderweight ga gb ix
           (if expected = 0 then 0 else midSize / expected) size0 size1]
       else [])
    else []
  | _, _ => []

/-- Vector difference of two points. -/
def vsub (p q : V2) : V2 := (p.1 - q.1, p.2 - q.2)

/-- Cross product of two 2-D vectors. -/
def crossV (a b : V2) : ℚ := a.1 * b.2 - a.2 * b.1

/-- Dot product of two 2-D vectors. -/
def dotV (a b : V2) : ℚ := a.1 * b.1 + a.2 * b.2

/-- Vec2::length, via the square-root parameter. -/
def lenV (ops : RealOps) (a : V2) : ℚ := ops.sqrtF (a.1 ^ 2 + a.2 ^ 2)

/-- The body of the test_kink loop (kink.rs lines 25-83) at index i of the
zipped contours, returning the kink problem if one is emitted there.  The
f64 NaN guards cannot fire in the rational model (division by zero is total
in the rationals), so only the magnitude guards remain. -/
def kinkAt (ops : RealOps) (ga gb : Glyph) (c0 c1 : List GlyfPoint)
    (ix : ℕ) (tol kk thr : ℚ) (i : ℕ) : Option Problem :=
  let T : ℚ := 1 / 10
  let d : GlyfPoint := ⟨(0, 0), false⟩
  let pt0 := c0.getD i d
  let pt1 := c1.getD i d
  if ¬ pt0.isControl ∨ ¬ pt1.isControl then none
  else
    let pt0p := c0.getD ((i + c0.length - 1) % c0.length) d
    let pt1p := c1.getD ((i + c1.length - 1) % c1.length) d
    let pt0n := c0.getD ((i + 1) % c0.length) d
    let pt1n := c1.getD ((i + 1) % c1.length) d
    if pt0p.isControl ∧ pt1p.isControl then none
    else
      let d0p := vsub pt0.pt pt0p.pt
      let d0n := vsub pt0n.pt pt0.pt
      let d1p := vsub pt1.pt pt1p.pt
      let d1n := vsub pt1n.pt pt1.pt
      let sin0 := crossV d0p d0n / (lenV ops d0p * lenV ops d0n)
      let sin1 := crossV d1p d1n / (lenV ops d1p * lenV ops d1n)
      if |sin0| > T ∨ |sin1| > T then none
      else if dotV d0p d0n < 0 ∨ dotV d1p d1n < 0 then none
      else
        let r0 := lenV ops d0p / (lenV ops d0p + lenV ops d0n)
        let r1 := lenV ops d1p / (lenV ops d1p + lenV ops d1n)
        if |r0 - r1| < T then none
        else
          let midpoint := lerpHalf pt0.pt pt1.pt
          let midPrev := lerpHalf pt0p.pt pt1p.pt
          let midNext := lerpHalf pt0n.pt pt1n.pt
          let md0 := vsub midpoint midPrev
          let md1 := vsub midNext midpoint
          let sinMid := crossV md0 md1 / (lenV ops md0 * lenV ops md1)
          if |sinMid| * (tol * kk) ≤ T then none
          else
            let crs := sinMid * lenV ops md0 * lenV ops md1
            let arcLen := lenV ops md0 + lenV ops md1
            let deviation := |crs / arcLen|
            if deviation < thr then none
            else
              let devRat := deviation / arcLen
              if devRat > T then none
              else some (Problem.mkKink ga gb ix i (T / (|sinMid| * kk)))

/-- test_kink (kink.rs): iterate the zipped contours and collect kink
problems; kinkiness and upem get their documented defaults. -/
def testKink (ops : RealOps) (ga gb : Glyph) (c0 c1 : List GlyfPoint)
    (ix : ℕ) (tol : ℚ) (kinkiness : Option ℚ) (upem : Option ℕ) : List Problem :=
  let kk := kinkiness.getD (1 / 2)
  let thr := (upem.getD 1000 : ℚ) * (1 / 500) * (1 / 2) / kk
  (List.range (min c0.length c1.length)).filterMap
    (kinkAt ops ga gb c0 c1 ix tol kk thr)

/-- The body of the per-contour loop of run_tests (lib.rs lines 249-293) at
contour index ix: the dead self-comparison guard, the starting-point test,
the weight test when the midpoint interpolation exists, and the kink test.
The outer Option is a panic anywhere in the body. -/
def perContour (ops : RealOps) (ga gb : Glyph) (m0v m1v : List (List ℚ))
    (mids : List (Option BezPath)) (m0pts m1pts : List (List GlyfPoint))
    (tol : ℚ) (kinkiness : Option ℚ) (upem : Option ℕ) (ix : ℕ)
    (c0 c1 : Isomorphisms) : Option (List Problem) :=
  if c0.length = 0 ∨ c1.length ≠ c1.length then some []
  else
    match testStartingPoint ops gb c0 c1 m0v m1v ix tol with
    | none => none
    | some sp =>
      let spProbs :=
        match sp with
        | some (t, pp, rev) =>
          if t < tol then [Problem.mkWrongStartPoint ga gb t ix pp rev] else []
        | none => []
      let wres : Option (List Problem) :=
        match mids[ix]? with
        | some (some mid) =>
          match m0v[ix]?, m1v[ix]? with
          | some v0, some v1 => testOverUnderweight ops ga gb v0 v1 mid tol ix
          | _, _ => none
        | _ => some []
      match wres with
      | none => none
      | some wProbs =>
        match m0pts[ix]?, m1pts[ix]? with
        | some p0, some p1 =>
          some (spProbs ++ wProbs ++ testKink ops ga gb p0 p1 ix tol kinkiness upem)
        | _, _ => none

/-- The per-contour loop of run_tests over the zipped isomorphism lists,
carrying the contour index. -/
def loopContours (ops : RealOps) (ga gb : Glyph) (m0v m1v : List (List ℚ))
    (mids : List (Option BezPath)) (m0pts m1pts : List (List GlyfPoint))
    (tol : ℚ) (kinkiness : Option ℚ) (upem : Option ℕ) :
    ℕ → List (Isomorphisms × Isomorphisms) → Option (List Problem)
  | _, [] => some []
  | ix, (c0, c1) :: rest =>
    match perContour ops ga gb m0v m1v mids m0pts m1pts tol kinkiness upem ix c0 c1 with
    | none => none
    | some ps =>
      match loopContours ops ga gb m0v m1v mids m0pts m1pts tol kinkiness upem
          (ix + 1) rest with
      | none => none
      | some qs => some (ps ++ qs)

/-- run_tests (lib.rs lines 194-296): basic compatibility with early exit,
contour-order matching with the ContourOrder problem recorded at the user
tolerance, reordering of the second glyph's per-contour data when a
matching was chosen, midpoint interpolation, and the per-contour tests.
The outer Option is a panic anywhere in the computation. -/
def runTests (ops : RealOps) (ga gb : Glyph) (tolerance kinkiness : Option ℚ)
    (upem : Option ℕ) : Option (List Problem) :=
  let tol := tolerance.getD (19 / 20)
  let base := testCompatibility ga gb
  if base ≠ [] then some base
  else
    match testContourOrder ga gb with
    | none => none
    | some (contourTol, matching?) =>
      let coProbs :=
        match matching? with
        | some m =>
          if contourTol < tol then
            [Problem.mkContourOrder ga gb tol (List.range m.length) (m.map Prod.snd)]
          else []
        | none => []
      let m1data? :
          Option (List Isomorphisms × List (List ℚ) × List BezPath ×
            List (List GlyfPoint)) :=
        match matching? with
        | some m =>
          match reorderM m gb.isomorphisms, reorderM m gb.greenVectors,
              reorderM m gb.curves, reorderM m gb.points with
          | some a, some b, some c, some dd => some (a, b, c, dd)
          | _, _, _, _ => none
        | none => some (gb.isomorphisms, gb.greenVectors, gb.curves, gb.points)
      match m1data? with
      | none => none
      | some (m1iso, m1vec, m1curves, m1pts) =>
        let mids := List.zipWith lerpCurve ga.curves m1curves
        match loopContours ops ga gb ga.greenVectors m1vec mids ga.points m1pts
            tol kinkiness upem 0 (ga.isomorphisms.zip m1iso) with
        | none => none
        | some loopProbs => some (coProbs ++ loopProbs)

/-- Well-formedness of a Glyph value: the invariants established by the
only public constructors of the Rust type (Glyph::default and the
From of BezGlyph conversion, lib.rs lines 99-157; the remaining fields are
private).  All per-contour arrays have the length of curves, descriptor
vectors have six entries (stats_to_vectors, lib.rs lines 84-97), every
characteristic has a non-empty rotated list and a rotation below its
contour's point count (Isomorphisms::new pushes 4 n entries and rotations
below n), and a contour has an empty isomorphism set exactly when it has no
points (the i = 0 rotation is always pushed for a non-empty contour). -/
def GlyphWF (g : Glyph) : Prop :=
  g.greenVectors.length = g.curves.length ∧
  g.controlVectors.length = g.curves.length ∧
  g.points.length = g.curves.length ∧
  g.isomorphisms.length = g.curves.length ∧
  (∀ v ∈ g.greenVectors, v.length = 6) ∧
  (∀ v ∈ g.controlVectors, v.length = 6) ∧
  (∀ pr ∈ g.isomorphisms.zip g.points,
     (∀ c ∈ pr.1, c.rotatedList ≠ [] ∧ c.rotation < pr.2.length) ∧
     (pr.1 = [] ↔ pr.2 = []))

instance (g : Glyph) : Decidable (GlyphWF g) := by
  unfold GlyphWF; infer_instance

/-- The problem kinds produced by the four tolerance-gated tests. -/
def tolGatedKind : ProblemDetails → Bool
  | .contourOrder _ _ => true
  | .wrongStartPoint _ _ => true
  | .overweight _ _ => true
  | .underweight _ _ => true
  | _ => false

/-- The problem kinds produced inside the per-contour loop. -/
def contourLoopKind : ProblemDetails → Bool
  | .wrongStartPoint _ _ => true
  | .overweight _ _ => true
  | .underweight _ _ => true
  | .kink => true
  | _ => false

/-- A single on-curve point at the origin, used by the concrete glyphs. -/
def ptO : GlyfPoint := ⟨(0, 0), true⟩

/-- A one-point characteristic at the origin. -/
def charO : Characteristic := ⟨[(0, 0)], 0, false⟩

/-- The empty glyph with default master data. -/
def gEmpty : Glyph := {}

/-- A well-formed one-contour glyph with a single point. -/
def gOne : Glyph :=
  { curves := [[]]
    greenVectors := [[0, 0, 0, 0, 0, 0]]
    controlVectors := [[0, 0, 0, 0, 0, 0]]
    points := [[ptO]]
    isomorphisms := [[charO]] }

/-- A well-formed two-contour glyph whose second contour is empty. -/
def gW9 : Glyph :=
  { curves := [[], []]
    greenVectors := [[0, 0, 0, 0, 0, 0], [0, 0, 0, 0, 0, 0]]
    controlVectors := [[0, 0, 0, 0, 0, 0], [0, 0, 0, 0, 0, 0]]
    points := [[ptO], []]
    isomorphisms := [[charO], []] }

/-- First glyph of the contour-order pair: two contours with descriptor
vectors (0,1,...) and (0,3,...). -/
def gaC5 : Glyph :=
  { curves := [[], []]
    greenVectors := [[0, 1, 0, 0, 0, 0], [0, 3, 0, 0, 0, 0]]
    controlVectors := [[0, 1, 0, 0, 0, 0], [0, 3, 0, 0, 0, 0]]
    points := [[ptO], [ptO]]
    isomorphisms := [[charO], [charO]] }

/-- Second glyph of the contour-order pair: the same two descriptor vectors
in swapped order, so the swap assignment has cost 0 while the identity
assignment has cost 8. -/
def gbC5 : Glyph :=
  { curves := [[], []]
    greenVectors := [[0, 3, 0, 0, 0, 0], [0, 1, 0, 0, 0, 0]]
    controlVectors := [[0, 3, 0, 0, 0, 0], [0, 1, 0, 0, 0, 0]]
    points := [[ptO], [ptO]]
    isomorphisms := [[charO], [charO]] }

/-- First glyph of the starting-point pair: one contour with one
characteristic at the origin. -/
def gaC6 : Glyph :=
  { curves := [[]]
    greenVectors := [[0, 0, 0, 0, 0, 0]]
    controlVectors := [[0, 0, 0, 0, 0, 0]]
    points := [[ptO]]
    isomorphisms := [[charO]] }

/-- Second glyph of the starting-point pair: its contour has two
characteristics; the minimal-cost one sits at list index 1 but records
rotation 5 (a reversed alignment), so min_index and rotation differ. -/
def gbC6 : Glyph :=
  { curves := [[]]
    greenVectors := [[0, 0, 0, 0, 0, 0]]
    controlVectors := [[0, 0, 0, 0, 0, 0]]
    points := [[ptO]]
    isomorphisms := [[⟨[(10, 0)], 0, false⟩, ⟨[(0, 0)], 5, true⟩]] }

/-- First glyph of the reorder pair: contour 0 aligns with the origin
characteristic and contour 1 with the (5,5) characteristic. -/
def gaC7 : Glyph :=
  { curves := [[], []]
    greenVectors := [[0, 1, 0, 0, 0, 0], [0, 3, 0, 0, 0, 0]]
    controlVectors := [[0, 1, 0, 0, 0, 0], [0, 3, 0, 0, 0, 0]]
    points := [[ptO], [ptO]]
    isomorphisms := [[⟨[(0, 0)], 0, false⟩], [⟨[(5, 5)], 0, false⟩]] }

/-- Second glyph of the reorder pair: its descriptor vectors are swapped
relative to gaC7, so the chosen matching is the swap; its contour 0 (in
file order) triggers the wrong-start-point test against gaC7's contour 0,
while its contour 1 would not. -/
def gbC7 : Glyph :=
  { curves := [[], []]
    greenVectors := [[0, 3, 0, 0, 0, 0], [0, 1, 0, 0, 0, 0]]
    controlVectors := [[0, 3, 0, 0, 0, 0], [0, 1, 0, 0, 0, 0]]
    points := [[ptO], [ptO]]
    isomorphisms := [[⟨[(9, 9)], 0, false⟩, ⟨[(0, 0)], 2, true⟩],
                     [⟨[(5, 5)], 0, false⟩]] }

/-- C1: the source weight test (weight.rs line 16) returns early exactly
when the signs of descriptor0[0] and descriptor1[0] agree, which is the
opposite of the specified activation condition.  At two equal positive
descriptors whose midpoint size collapses to zero, the spec-side weight
test of section 4.7 emits an Underweight problem, while the source test
emits nothing. -/
theorem C1_weight_sign_gate_inverted :
    specWeightProblems ops0 gEmpty gEmpty [1, 0, 0, 0, 0, 0] [1, 0, 0, 0, 0, 0]
        [] (19 / 20) 0 = [Problem.mkUnderweight gEmpty gEmpty 0 0 1 1] ∧
    testOverUnderweight ops0 gEmpty gEmpty [1, 0, 0, 0, 0, 0] [1, 0, 0, 0, 0, 0]
        [] (19 / 20) 0 = some [] := by
  constructor
  · with_unfolding_all rfl
  · with_unfolding_all rfl

/-- C3: if the basic-compatibility stage emits at least one problem,
run_tests returns exactly those problems and nothing else (lib.rs lines
204-208). -/
theorem C3_structural_early_exit (ops : RealOps) (ga gb : Glyph)
    (tolerance kinkiness : Option ℚ) (upem : Option ℕ)
    (h : testCompatibility ga gb ≠ []) :
    runTests ops ga gb tolerance kinkiness upem = some (testCompatibility ga gb) := by
  simp only [runTests]
  rw [if_pos h]

/-- Witness for C3 at a concrete pair with differing contour counts. -/
theorem C3_structural_early_exit_witness :
    testCompatibility gOne gEmpty ≠ [] ∧
    runTests ops0 gOne gEmpty none none none = some (testCompatibility gOne gEmpty) :=
  ⟨by decide, C3_structural_early_exit ops0 gOne gEmpty none none none (by decide)⟩

/-- C5: at a pair of glyphs whose chosen matching has cost ratio 0, the
reported ContourOrder problem carries the user tolerance 19/20 in its
tolerance field (lib.rs line 215 passes the user tolerance to
Problem::contour_order), not the matching cost ratio returned by
test_contour_order. -/
theorem C5_contour_order_tolerance_is_user_tolerance :
    runTests ops0 gaC5 gbC5 none none none =
      some [Problem.mkContourOrder gaC5 gbC5 (19 / 20) [0, 1] [1, 0]] ∧
    testContourOrder gaC5 gbC5 = some (0, some [(0, 1), (1, 0)]) := by
  constructor
  · with_unfolding_all rfl
  · with_unfolding_all rfl

/-- C6: at a pair of glyphs whose minimal-cost characteristic sits at
isomorphism-list index 1 but records rotation 5, the reported
WrongStartPoint problem carries proposed_point 1 (the list index min_index
returned at startingpoint.rs line 117), not the rotation 5 recorded in
that characteristic. -/
theorem C6_wrong_start_point_reports_min_index :
    runTests ops0 gaC6 gbC6 none none none =
      some [Problem.mkWrongStartPoint gaC6 gbC6 0 0 1 true] ∧
    ((gbC6.isomorphisms.getD 0 []).getD 1 ⟨[], 0, false⟩).rotation = 5 := by
  constructor
  · with_unfolding_all rfl
  · with_unfolding_all rfl

/-- C7: at a pair of glyphs where a ContourOrder problem is recorded with
the non-identity matching (0,1),(1,0), the subsequent starting-point test
still reads glyph_b's contour 0 in file order (emitting a WrongStartPoint
there), whereas the matching-permuted comparison of glyph_a's contour 0
against glyph_b's contour 1 would stay silent: Matching::reorder picks
data[pos.row] (utils.rs line 71) and the assignment rows are 0..n, so the
recorded matching never permutes the data. -/
theorem C7_reorder_reads_original_order :
    runTests ops0 gaC7 gbC7 none none none =
      some [Problem.mkContourOrder gaC7 gbC7 (19 / 20) [0, 1] [1, 0],
            Problem.mkWrongStartPoint gaC7 gbC7 0 0 1 true] ∧
    testStartingPoint ops0 gbC7 (gaC7.isomorphisms.getD 0 [])
        (gbC7.isomorphisms.getD 1 []) gaC7.greenVectors gbC7.greenVectors 0
        (19 / 20) = some (some (1, 0, false)) := by
  constructor
  · with_unfolding_all rfl
  · with_unfolding_all rfl

/-- C8 counterexample: lerp_curve zips the element lists and stops at the
shorter one, so two paths of different element counts whose common prefix
is kind-compatible produce some truncated path, not none as the claim
requires. -/
theorem C8_length_mismatch_not_none :
    ([PathEl.moveTo (0, 0)] : BezPath).length ≠
      ([PathEl.moveTo (0, 0), PathEl.lineTo (2, 2)] : BezPath).length ∧
    lerpCurve [PathEl.moveTo (0, 0)] [PathEl.moveTo (0, 0), PathEl.lineTo (2, 2)] =
      some [PathEl.moveTo (0, 0)] := by
  constructor
  · decide
  · with_unfolding_all rfl

/-- C8 (amended): on paths of equal element count, lerp_curve agrees with
the spec's midpoint_curve: none exactly when the element kinds differ at
some position, and otherwise the path of identical length and kinds whose
points are the 0.5 linear interpolations; when the counts differ the
source function instead truncates to the shorter path. -/
theorem C8_lerpCurve_matches_spec_on_equal_counts (a b : BezPath)
    (h : a.length = b.length) : lerpCurve a b = specMidpointCurve a b := by
  induction a generalizing b with
  | nil =>
    cases b with
    | nil => rfl
    | cons e1 r1 => simp at h
  | cons e0 r0 ih =>
    cases b with
    | nil => simp at h
    | cons e1 r1 =>
      simp only [List.length_cons, Nat.add_right_cancel_iff] at h
      simp only [lerpCurve, specMidpointCurve, ih r1 h]

/-- Witness for the amended C8 at a concrete equal-length pair. -/
theorem C8_lerpCurve_matches_spec_witness :
    ([PathEl.moveTo (0, 0), PathEl.lineTo (2, 2)] : BezPath).length =
      ([PathEl.moveTo (4, 0), PathEl.lineTo (0, 2)] : BezPath).length ∧
    lerpCurve [PathEl.moveTo (0, 0), PathEl.lineTo (2, 2)]
        [PathEl.moveTo (4, 0), PathEl.lineTo (0, 2)] =
      specMidpointCurve [PathEl.moveTo (0, 0), PathEl.lineTo (2, 2)]
        [PathEl.moveTo (4, 0), PathEl.lineTo (0, 2)] :=
  ⟨rfl, C8_lerpCurve_matches_spec_on_equal_counts _ _ rfl⟩

theorem vdiffQ_self (v : List ℚ) : vdiffQ v v = 0 := by
  induction v with
  | nil => rfl
  | cons x xs ih => simp [vdiffQ] at ih ⊢; simpa using ih

theorem vdiffQ_nonneg (a b : List ℚ) : 0 ≤ vdiffQ a b := by
  refine List.sum_nonneg ?_
  intro x hx
  obtain ⟨p, _, rfl⟩ := List.mem_map.1 hx
  exact sq_nonneg _

theorem vdiffV_self (v : List V2) : vdiffV v v = 0 := by
  induction v with
  | nil => rfl
  | cons x xs ih => simp [vdiffV] at ih ⊢; simpa using ih

theorem vdiffV_nonneg (a b : List V2) : 0 ≤ vdiffV a b := by
  refine List.sum_nonneg ?_
  intro x hx
  obtain ⟨p, _, rfl⟩ := List.mem_map.1 hx
  exact add_nonneg (sq_nonneg _) (sq_nonneg _)

theorem minGo_snd (bi : ℕ) (bv : ℚ) (j : ℕ) (l : List ℚ) :
    (minGo bi bv j l).2 = bv ∨ (minGo bi bv j l).2 ∈ l := by
  induction l generalizing bi bv j with
  | nil => left; rfl
  | cons x xs ih =>
    simp only [minGo]
    split
    · rcases ih j x (j + 1) with h | h
      · right; rw [h]; exact List.mem_cons_self _ _
      · right; exact List.mem_cons_of_mem _ h
    · rcases ih bi bv (j + 1) with h | h
      · left; exact h
      · right; exact List.mem_cons_of_mem _ h

theorem minByIdx_snd_mem {l : List ℚ} {p : ℕ × ℚ} (h : minByIdx l = some p) :
    p.2 = l.headD 0 ∨ p.2 ∈ l := by
  cases l with
  | nil => simp [minByIdx] at h
  | cons x xs =>
    simp only [minByIdx, Option.some.injEq] at h
    rcases minGo_snd 0 x 1 xs with h2 | h2
    · left; rw [← h]; exact h2
    · right; rw [← h]; exact List.mem_cons_of_mem _ h2

theorem spTol_zero (m : ℚ) : spTol m 0 = 1 := by simp [spTol]

theorem map_zip_self {α β : Type} (f : α × α → β) (l : List α) :
    (l.zip l).map f = l.map (fun x => f (x, x)) := by
  induction l with
  | nil => rfl
  | cons x xs ih => simpa [List.zip_cons_cons] using ih

theorem zip_self_mem {α : Type} {l : List α} {p : α × α} (h : p ∈ l.zip l) :
    p.1 = p.2 := by
  induction l with
  | nil => simp at h
  | cons x xs ih =>
    rcases List.mem_cons.1 h with h | h
    · rw [h]
    · exact ih h

theorem permCost_foldl_le (cost : ℕ → ℕ → ℚ) (l : List (List ℕ)) (acc : List ℕ) :
    permCost cost (l.foldl
      (fun acc σ => if permCost cost σ < permCost cost acc then σ else acc) acc) ≤
    permCost cost acc := by
  induction l generalizing acc with
  | nil => exact le_refl _
  | cons σ rest ih =>
    simp only [List.foldl_cons]
    refine le_trans (ih _) ?_
    split
    · exact le_of_lt (by assumption)
    · exact le_refl _

theorem foldl_pick_mem (cost : ℕ → ℕ → ℚ) (l : List (List ℕ)) (acc : List ℕ) :
    (l.foldl
      (fun acc σ => if permCost cost σ < permCost cost acc then σ else acc) acc) = acc ∨
    (l.foldl
      (fun acc σ => if permCost cost σ < permCost cost acc then σ else acc) acc) ∈ l := by
  induction l generalizing acc with
  | nil => left; rfl
  | cons σ rest ih =>
    simp only [List.foldl_cons]
    rcases ih (if permCost cost σ < permCost cost acc then σ else acc) with h | h
    · rw [h]
      split
      · right; exact List.mem_cons_self _ _
      · left; rfl
    · right; exact List.mem_cons_of_mem _ h

theorem bestPerm_length (n : ℕ) (cost : ℕ → ℕ → ℚ) : (bestPerm n cost).length = n := by
  unfold bestPerm
  rcases foldl_pick_mem cost (List.range n).permutations (List.range n) with h | h
  · rw [h]; exact List.length_range n
  · rw [(List.mem_permutations.1 h).length_eq]; exact List.length_range n

theorem bruteAssignment_cost_le (n : ℕ) (cost : ℕ → ℕ → ℚ) :
    ((bruteAssignment n cost).map (fun p => cost p.1 p.2)).sum ≤
    ((List.range n).map (fun i => cost i i)).sum := by
  have hbest : ((bruteAssignment n cost).map (fun p => cost p.1 p.2)).sum =
      permCost cost (bestPerm n cost) := by
    rw [bruteAssignment, permCost, List.enum_eq_zip_range, bestPerm_length]
  have hid : ((List.range n).map (fun i => cost i i)).sum =
      permCost cost (List.range n) := by
    rw [permCost, List.enum_eq_zip_range, List.length_range,
      map_zip_self (fun p => cost p.1 p.2) (List.range n)]
  rw [hbest, hid]
  exact permCost_foldl_le cost (List.range n).permutations (List.range n)

theorem reorderM_range' {α : Type} (ts : List ℕ) :
    ∀ (k : ℕ) (data : List α), k + ts.length = data.length →
    reorderM ((List.range' k ts.length).zip ts) data = some (data.drop k) := by
  induction ts with
  | nil =>
    intro k data h
    simp only [List.length_nil, Nat.add_zero] at h
    subst h
    simp [reorderM, List.drop_length]
  | cons t ts ih =>
    intro k data h
    simp only [List.length_cons] at h
    have hk : k < data.length := by omega
    have ih2 := ih (k + 1) data (by omega)
    unfold List.zip at ih2 ⊢
    simp only [List.range'_succ, List.zipWith_cons_cons, reorderM,
      List.getElem?_eq_getElem hk, ih2]
    rw [List.drop_eq_getElem_cons hk]

theorem reorderM_ident {α : Type} {σ : List ℕ} {n : ℕ} (data : List α)
    (hσ : σ.length = n) (hd : data.length = n) :
    reorderM ((List.range n).zip σ) data = some data := by
  have h := reorderM_range' σ 0 data (by omega)
  rw [List.range_eq_range', ← hσ]
  simpa using h

theorem matchingForVectors_eq {m0 m1 : List (List ℚ)} (h : m0.length = m1.length) :
    matchingForVectors m0 m1 = some
      (bruteAssignment m0.length (fun i j => vdiffQ (m0.getD i []) (m1.getD j [])),
       ((bruteAssignment m0.length
          (fun i j => vdiffQ (m0.getD i []) (m1.getD j []))).map
            (fun p => vdiffQ (m0.getD p.1 []) (m1.getD p.2 []))).sum,
       ((List.range m0.length).map
          (fun i => vdiffQ (m0.getD i []) (m1.getD i []))).sum) := by
  unfold matchingForVectors
  rw [if_neg (not_ne_iff.mpr h)]

theorem matchingForVectors_le {m0 m1 : List (List ℚ)} {m : List (ℕ × ℕ)} {mc ic : ℚ}
    (h : matchingForVectors m0 m1 = some (m, mc, ic)) : mc ≤ ic ∧ 0 ≤ mc := by
  unfold matchingForVectors at h
  split at h
  · exact absurd h (by simp)
  · simp only [Option.some.injEq, Prod.mk.injEq] at h
    obtain ⟨hm, hmc, hic⟩ := h
    constructor
    · rw [← hmc, ← hic]
      exact bruteAssignment_cost_le m0.length
        (fun i j => vdiffQ (m0.getD i []) (m1.getD j []))
    · rw [← hmc]
      refine List.sum_nonneg ?_
      intro x hx
      obtain ⟨p, _, rfl⟩ := List.mem_map.1 hx
      exact vdiffQ_nonneg _ _

theorem matchingForVectors_self {v : List (List ℚ)} {m : List (ℕ × ℕ)} {mc ic : ℚ}
    (h : matchingForVectors v v = some (m, mc, ic)) : mc = ic := by
  have hic : ic = 0 := by
    unfold matchingForVectors at h
    split at h
    · exact absurd h (by simp)
    · simp only [Option.some.injEq, Prod.mk.injEq] at h
      rw [← h.2.2]
      refine List.sum_eq_zero ?_
      intro x hx
      obtain ⟨i, _, rfl⟩ := List.mem_map.1 hx
      exact vdiffQ_self _
  obtain ⟨h1, h2⟩ := matchingForVectors_le h
  rw [hic] at h1 ⊢
  exact le_antisymm h1 h2

theorem testContourOrder_self (g : Glyph) : testContourOrder g g = some (1, none) := by
  by_cases hn : g.controlVectors.length ≤ 1
  · simp [testContourOrder, hn]
  · simp only [testContourOrder, if_neg hn,
      matchingForVectors_eq (rfl : g.controlVectors.length = g.controlVectors.length)]
    rw [if_pos (matchingForVectors_self (matchingForVectors_eq rfl))]


theorem testCompatibility_self (g : Glyph) : testCompatibility g g = [] := by
  unfold testCompatibility
  simp only [ne_eq, not_true_eq_false, if_false, List.nil_append]
  refine List.flatMap_eq_nil_iff.mpr ?_
  intro x hx
  have hx2 : x.2 ∈ g.points.zip g.points :=
    List.getElem?_mem (List.mem_enum_iff_getElem?.1 hx)
  have hzz : x.2.1 = x.2.2 := zip_self_mem hx2
  obtain ⟨i, p1, p2⟩ := x
  simp only at hzz
  subst hzz
  simp only [ne_eq, not_true_eq_false, if_false, List.nil_append]
  refine List.filterMap_eq_nil_iff.mpr ?_
  intro q hq
  have : q.2.1 = q.2.2 := zip_self_mem (List.getElem?_mem (List.mem_enum_iff_getElem?.1 hq))
  simp [this]

theorem testCompatibility_kinds {a b : Glyph} {p : Problem}
    (h : p ∈ testCompatibility a b) :
    tolGatedKind p.details = false ∧ contourLoopKind p.details = false := by
  unfold testCompatibility at h
  rcases List.mem_append.1 h with h | h
  · split at h
    · rcases List.mem_singleton.1 h with rfl
      exact ⟨rfl, rfl⟩
    · simp at h
  · obtain ⟨x, _, hx⟩ := List.mem_flatMap.1 h
    obtain ⟨i, p1, p2⟩ := x
    rcases List.mem_append.1 hx with h2 | h2
    · split at h2
      · rcases List.mem_singleton.1 h2 with rfl
        exact ⟨rfl, rfl⟩
      · simp at h2
    · obtain ⟨q, _, hq⟩ := List.mem_filterMap.1 h2
      obtain ⟨j, q1, q2⟩ := q
      simp only at hq
      split at hq
      · rcases Option.some.inj hq with rfl
        exact ⟨rfl, rfl⟩
      · simp at hq

theorem testCompatibility_nil_curves {a b : Glyph} (h : testCompatibility a b = []) :
    a.curves.length = b.curves.length := by
  unfold testCompatibility at h
  rcases List.append_eq_nil.1 h with ⟨h1, _⟩
  by_contra hne
  rw [if_pos hne] at h1
  exact absurd h1 (by simp)

theorem testCompatibility_nil_points {a b : Glyph} (h : testCompatibility a b = []) :
    ∀ (i : ℕ) (p1 p2 : List GlyfPoint), a.points[i]? = some p1 →
      b.points[i]? = some p2 → p1.length = p2.length := by
  intro i p1 p2 h1 h2
  unfold testCompatibility at h
  rcases List.append_eq_nil.1 h with ⟨_, hnode⟩
  have hz : (a.points.zip b.points)[i]? = some (p1, p2) :=
    List.getElem?_zip_eq_some.2 ⟨h1, h2⟩
  have hmem : (i, (p1, p2)) ∈ (a.points.zip b.points).enum :=
    List.mk_mem_enum_iff_getElem?.2 hz
  have hbody := List.flatMap_eq_nil_iff.1 hnode _ hmem
  simp only at hbody
  rcases List.append_eq_nil.1 hbody with ⟨hcount, _⟩
  by_contra hne
  rw [if_pos hne] at hcount
  exact absurd hcount (by simp)


section LoopLemmas

variable (ops : RealOps) (ga gb : Glyph) (m0v m1v : List (List ℚ))
  (mids : List (Option BezPath)) (m0pts m1pts : List (List GlyfPoint))
  (tol : ℚ) (kk : Option ℚ) (up : Option ℕ)

theorem loopContours_cons (ix : ℕ) (a0 a1 : Isomorphisms)
    (rest : List (Isomorphisms × Isomorphisms)) :
    loopContours ops ga gb m0v m1v mids m0pts m1pts tol kk up ix ((a0, a1) :: rest) =
      match perContour ops ga gb m0v m1v mids m0pts m1pts tol kk up ix a0 a1 with
      | none => none
      | some ps =>
        match loopContours ops ga gb m0v m1v mids m0pts m1pts tol kk up (ix + 1) rest with
        | none => none
        | some qs => some (ps ++ qs) := rfl

theorem loopContours_get :
    ∀ (zl : List (Isomorphisms × Isomorphisms)) (ix : ℕ) (ps : List Problem),
      loopContours ops ga gb m0v m1v mids m0pts m1pts tol kk up ix zl = some ps →
      ∀ (j : ℕ) (c0 c1 : Isomorphisms), zl[j]? = some (c0, c1) →
      ∃ l, perContour ops ga gb m0v m1v mids m0pts m1pts tol kk up (ix + j) c0 c1 =
        some l ∧ ∀ p ∈ l, p ∈ ps := by
  intro zl
  induction zl with
  | nil => intro ix ps _ j c0 c1 hj; simp at hj
  | cons hd rest ih =>
    intro ix ps h j c0 c1 hj
    obtain ⟨a0, a1⟩ := hd
    rw [loopContours_cons] at h
    cases hpc : perContour ops ga gb m0v m1v mids m0pts m1pts tol kk up ix a0 a1 with
    | none => rw [hpc] at h; exact absurd h (by simp)
    | some l0 =>
      rw [hpc] at h
      cases hrest : loopContours ops ga gb m0v m1v mids m0pts m1pts tol kk up
          (ix + 1) rest with
      | none => rw [hrest] at h; exact absurd h (by simp)
      | some qs =>
        rw [hrest] at h
        simp only [Option.some.injEq] at h
        subst h
        cases j with
        | zero =>
          simp only [List.getElem?_cons_zero, Option.some.injEq, Prod.mk.injEq] at hj
          obtain ⟨rfl, rfl⟩ := hj
          refine ⟨l0, by simpa using hpc, fun p hp => List.mem_append_left _ hp⟩
        | succ j2 =>
          simp only [List.getElem?_cons_succ] at hj
          obtain ⟨l, hl, hsub⟩ := ih (ix + 1) qs hrest j2 c0 c1 hj
          have harith : ix + (j2 + 1) = ix + 1 + j2 := by omega
          rw [harith]
          exact ⟨l, hl, fun p hp => List.mem_append_right _ (hsub p hp)⟩

theorem loopContours_mem :
    ∀ (zl : List (Isomorphisms × Isomorphisms)) (ix : ℕ) (ps : List Problem),
      loopContours ops ga gb m0v m1v mids m0pts m1pts tol kk up ix zl = some ps →
      ∀ p ∈ ps, ∃ (j : ℕ) (c0 c1 : Isomorphisms) (l : List Problem),
        zl[j]? = some (c0, c1) ∧
        perContour ops ga gb m0v m1v mids m0pts m1pts tol kk up (ix + j) c0 c1 =
          some l ∧ p ∈ l := by
  intro zl
  induction zl with
  | nil =>
    intro ix ps h p hp
    unfold loopContours at h
    simp only [Option.some.injEq] at h
    subst h
    simp at hp
  | cons hd rest ih =>
    intro ix ps h p hp
    obtain ⟨a0, a1⟩ := hd
    rw [loopContours_cons] at h
    cases hpc : perContour ops ga gb m0v m1v mids m0pts m1pts tol kk up ix a0 a1 with
    | none => rw [hpc] at h; exact absurd h (by simp)
    | some l0 =>
      rw [hpc] at h
      cases hrest : loopContours ops ga gb m0v m1v mids m0pts m1pts tol kk up
          (ix + 1) rest with
      | none => rw [hrest] at h; exact absurd h (by simp)
      | some qs =>
        rw [hrest] at h
        simp only [Option.some.injEq] at h
        subst h
        rcases List.mem_append.1 hp with hp | hp
        · exact ⟨0, a0, a1, l0, by simp, by simpa using hpc, hp⟩
        · obtain ⟨j, c0, c1, l, hj, hl, hpl⟩ := ih (ix + 1) qs hrest p hp
          refine ⟨j + 1, c0, c1, l, by simpa using hj, ?_, hpl⟩
          have harith : ix + (j + 1) = ix + 1 + j := by omega
          rw [harith]
          exact hl

theorem loopContours_some :
    ∀ (zl : List (Isomorphisms × Isomorphisms)) (ix : ℕ),
      (∀ (j : ℕ) (c0 c1 : Isomorphisms), zl[j]? = some (c0, c1) →
        ∃ l, perContour ops ga gb m0v m1v mids m0pts m1pts tol kk up (ix + j) c0 c1 =
          some l) →
      ∃ ps, loopContours ops ga gb m0v m1v mids m0pts m1pts tol kk up ix zl = some ps := by
  intro zl
  induction zl with
  | nil => intro ix _; exact ⟨[], rfl⟩
  | cons hd rest ih =>
    intro ix hall
    obtain ⟨a0, a1⟩ := hd
    obtain ⟨l0, hl0⟩ := hall 0 a0 a1 (by simp)
    obtain ⟨qs, hqs⟩ := ih (ix + 1) (fun j c0 c1 hj => by
      have := hall (j + 1) c0 c1 (by simpa using hj)
      have harith : ix + (j + 1) = ix + 1 + j := by omega
      rwa [harith] at this)
    refine ⟨l0 ++ qs, ?_⟩
    rw [loopContours_cons]
    have h0 : ix + 0 = ix := by omega
    rw [h0] at hl0
    rw [hl0, hqs]

theorem loopContours_nilAll :
    ∀ (zl : List (Isomorphisms × Isomorphisms)) (ix : ℕ),
      (∀ (j : ℕ) (c0 c1 : Isomorphisms), zl[j]? = some (c0, c1) →
        perContour ops ga gb m0v m1v mids m0pts m1pts tol kk up (ix + j) c0 c1 =
          some []) →
      loopContours ops ga gb m0v m1v mids m0pts m1pts tol kk up ix zl = some [] := by
  intro zl
  induction zl with
  | nil => intro ix _; rfl
  | cons hd rest ih =>
    intro ix hall
    obtain ⟨a0, a1⟩ := hd
    have h0 := hall 0 a0 a1 (by simp)
    have h0' : ix + 0 = ix := by omega
    rw [h0'] at h0
    have hrest := ih (ix + 1) (fun j c0 c1 hj => by
      have := hall (j + 1) c0 c1 (by simpa using hj)
      have harith : ix + (j + 1) = ix + 1 + j := by omega
      rwa [harith] at this)
    rw [loopContours_cons, h0, hrest]
    rfl

end LoopLemmas


theorem kinkAt_eq {ops : RealOps} {ga gb : Glyph} {c0 c1 : List GlyfPoint}
    {ix : ℕ} {tol kk thr : ℚ} {i : ℕ} {p : Problem}
    (h : kinkAt ops ga gb c0 c1 ix tol kk thr i = some p) :
    ∃ t, p = Problem.mkKink ga gb ix i t := by
  simp only [kinkAt] at h
  split at h
  · exact absurd h (by simp)
  split at h
  · exact absurd h (by simp)
  split at h
  · exact absurd h (by simp)
  split at h
  · exact absurd h (by simp)
  split at h
  · exact absurd h (by simp)
  split at h
  · exact absurd h (by simp)
  split at h
  · exact absurd h (by simp)
  split at h
  · exact absurd h (by simp)
  exact ⟨_, (Option.some.inj h).symm⟩

theorem kinkAt_self (ops : RealOps) (ga gb : Glyph) (pts : List GlyfPoint)
    (ix : ℕ) (tol kk thr : ℚ) (i : ℕ) :
    kinkAt ops ga gb pts pts ix tol kk thr i = none := by
  simp only [kinkAt]
  split
  · rfl
  split
  · rfl
  split
  · rfl
  split
  · rfl
  split
  · rfl
  next h5 => exact absurd (by simp only [sub_self, abs_zero]; norm_num) h5

theorem testKink_mem {ops : RealOps} {ga gb : Glyph} {c0 c1 : List GlyfPoint}
    {ix : ℕ} {tol : ℚ} {kk : Option ℚ} {up : Option ℕ} {p : Problem}
    (hp : p ∈ testKink ops ga gb c0 c1 ix tol kk up) :
    p.details = .kink ∧ p.contour = some ix := by
  simp only [testKink] at hp
  obtain ⟨i, _, hi⟩ := List.mem_filterMap.1 hp
  obtain ⟨t, rfl⟩ := kinkAt_eq hi
  exact ⟨rfl, rfl⟩

theorem testKink_self (ops : RealOps) (ga gb : Glyph) (pts : List GlyfPoint)
    (ix : ℕ) (tol : ℚ) (kk : Option ℚ) (up : Option ℕ) :
    testKink ops ga gb pts pts ix tol kk up = [] := by
  simp only [testKink]
  refine List.filterMap_eq_nil_iff.mpr ?_
  intro i _
  exact kinkAt_self ops ga gb pts ix tol _ _ i

theorem weight_some {ops : RealOps} {ga gb : Glyph} {v0 v1 : List ℚ}
    {mid : BezPath} {tol : ℚ} {ix : ℕ} {a0 b0 : ℚ}
    (h0 : v0[0]? = some a0) (h1 : v1[0]? = some b0) :
    ∃ l, testOverUnderweight ops ga gb v0 v1 mid tol ix = some l := by
  simp only [testOverUnderweight, h0, h1]
  split
  · exact ⟨[], rfl⟩
  · exact ⟨_, rfl⟩

theorem weight_self {ops : RealOps} {ga gb : Glyph} {v : List ℚ}
    {mid : BezPath} {tol : ℚ} {ix : ℕ} {a0 : ℚ} (h : v[0]? = some a0) :
    testOverUnderweight ops ga gb v v mid tol ix = some [] := by
  simp [testOverUnderweight, h]

theorem weight_mem {ops : RealOps} {ga gb : Glyph} {v0 v1 : List ℚ}
    {mid : BezPath} {tol : ℚ} {ix : ℕ} {l : List Problem} {p : Problem}
    (h : testOverUnderweight ops ga gb v0 v1 mid tol ix = some l) (hp : p ∈ l) :
    p.contour = some ix ∧ tolGatedKind p.details = true ∧
      contourLoopKind p.details = true := by
  unfold testOverUnderweight at h
  cases hv0 : v0[0]? with
  | none => rw [hv0] at h; exact absurd h (by simp)
  | some a0 =>
    cases hv1 : v1[0]? with
    | none => rw [hv0, hv1] at h; exact absurd h (by simp)
    | some b0 =>
      rw [hv0, hv1] at h
      simp only at h
      split at h
      · rcases Option.some.inj h with rfl
        simp at hp
      · rcases Option.some.inj h with rfl
        rcases List.mem_append.1 hp with hp | hp
        · split at hp
          · rcases List.mem_singleton.1 hp with rfl
            exact ⟨rfl, rfl, rfl⟩
          · simp at hp
        · split at hp
          · rcases List.mem_singleton.1 hp with rfl
            exact ⟨rfl, rfl, rfl⟩
          · simp at hp

theorem weight_mono {ops : RealOps} {ga gb : Glyph} {v0 v1 : List ℚ}
    {mid : BezPath} {ix : ℕ} {t1 t2 : ℚ}
    (hsq : ∀ x : ℚ, 0 ≤ x → 0 ≤ ops.sqrtF x) (h0 : 0 < t1) (h12 : t1 ≤ t2)
    {l1 l2 : List Problem}
    (h1 : testOverUnderweight ops ga gb v0 v1 mid t1 ix = some l1)
    (h2 : testOverUnderweight ops ga gb v0 v1 mid t2 ix = some l2)
    {p : Problem} (hp : p ∈ l1) : p ∈ l2 := by
  unfold testOverUnderweight at h1 h2
  cases hv0 : v0[0]? with
  | none => rw [hv0] at h1; exact absurd h1 (by simp)
  | some a0 =>
    cases hv1 : v1[0]? with
    | none => rw [hv0, hv1] at h1; exact absurd h1 (by simp)
    | some b0 =>
      rw [hv0, hv1] at h1 h2
      simp only at h1 h2
      by_cases hsign : (decide (a0 < 0)) = (decide (b0 < 0))
      · rw [if_pos hsign] at h1
        rcases Option.some.inj h1 with rfl
        simp at hp
      · rw [if_neg hsign] at h1 h2
        rcases Option.some.inj h1 with rfl
        rcases Option.some.inj h2 with rfl
        rcases List.mem_append.1 hp with hp | hp
        · refine List.mem_append_left _ ?_
          split at hp
          · rename_i hcond
            rcases List.mem_singleton.1 hp with rfl
            have hexp : (0 : ℚ) ≤ max (a0 * a0) (b0 * b0) :=
              le_max_of_le_left (mul_self_nonneg a0)
            have hdiv : max (a0 * a0) (b0 * b0) / t2 ≤ max (a0 * a0) (b0 * b0) / t1 := by
              gcongr
            have hcond2 : (1 : ℚ) / 100000 + max (a0 * a0) (b0 * b0) / t2 <
                ops.midSz mid * ops.midSz mid := by linarith
            rw [if_pos hcond2]
            exact List.mem_singleton.2 rfl
          · simp at hp
        · refine List.mem_append_right _ ?_
          split at hp
          · rename_i hcond
            rcases List.mem_singleton.1 hp with rfl
            have hexp : (0 : ℚ) ≤ ops.sqrtF (a0 * a0 * (b0 * b0)) :=
              hsq _ (mul_nonneg (mul_self_nonneg a0) (mul_self_nonneg b0))
            have hmul : ops.sqrtF (a0 * a0 * (b0 * b0)) * t1 ≤
                ops.sqrtF (a0 * a0 * (b0 * b0)) * t2 :=
              mul_le_mul_of_nonneg_left h12 hexp
            have hcond2 : ops.sqrtF (a0 * a0 * (b0 * b0)) * t2 >
                ops.midSz mid * ops.midSz mid + 1 / 100000 := by linarith
            rw [if_pos hcond2]
            exact List.mem_singleton.2 rfl
          · simp at hp


theorem minByIdx_mem {l : List ℚ} {p : ℕ × ℚ} (h : minByIdx l = some p) : p.2 ∈ l := by
  cases l with
  | nil => simp [minByIdx] at h
  | cons x xs =>
    simp only [minByIdx, Option.some.injEq] at h
    subst h
    rcases minGo_snd 0 x 1 xs with h2 | h2
    · rw [h2]; exact List.mem_cons_self _ _
    · exact List.mem_cons_of_mem _ h2

theorem mkTransform_some (ops : RealOps) (v : List ℚ) (h : v.length = 6) :
    ∃ t, mkTransform ops v = some t := by
  unfold mkTransform
  rw [List.getElem?_eq_getElem (by omega), List.getElem?_eq_getElem (by omega),
    List.getElem?_eq_getElem (by omega), List.getElem?_eq_getElem (by omega)]
  exact ⟨_, rfl⟩

theorem sp_self_no_push {ops : RealOps} {gb : Glyph} {iso : Isomorphisms}
    {m0v m1v : List (List ℚ)} {ix : ℕ} {tol : ℚ} (htol : tol ≤ 1)
    {s : Option (ℚ × ℕ × Bool)}
    (hs : testStartingPoint ops gb iso iso m0v m1v ix tol = some s) :
    ∀ (r : ℚ) (pp : ℕ) (rv : Bool), s = some (r, pp, rv) → ¬ r < tol := by
  simp only [testStartingPoint] at hs
  split at hs
  · rcases Option.some.inj hs with rfl
    intro r pp rv h
    exact Option.noConfusion h
  next c0 heq0 =>
    split at hs
    · rcases Option.some.inj hs with rfl
      intro r pp rv h
      exact Option.noConfusion h
    next mi mc heqm =>
      split at hs
      · rcases Option.some.inj hs with rfl
        intro r pp rv h
        exact Option.noConfusion h
      next fc0 heqf =>
        split at hs
        · rcases Option.some.inj hs with rfl
          intro r pp rv h
          exact Option.noConfusion h
        next cmin heqc =>
          have hfc0 : fc0 = 0 := by
            rw [List.getElem?_map, heq0] at heqf
            simp at heqf
            rw [← heqf]
            exact vdiffV_self _
          have hmc0 : 0 ≤ mc := by
            have hmem := minByIdx_mem heqm
            simp only at hmem
            obtain ⟨c, _, hc⟩ := List.mem_map.1 hmem
            rw [← hc]
            exact vdiffV_nonneg _ _
          split at hs
          · next hgate =>
            rw [hfc0, zero_mul] at hgate
            exact absurd hgate (not_lt.2 hmc0)
          · rcases Option.some.inj hs with rfl
            intro r pp rv h
            have h2 := Option.some.inj h
            simp only [Prod.mk.injEq] at h2
            obtain ⟨hr, -, -⟩ := h2
            rw [← hr, hfc0, spTol_zero]
            exact not_lt.2 htol


theorem sp_some {ops : RealOps} {gb : Glyph} {iso0 iso1 : Isomorphisms}
    {m0v m1v : List (List ℚ)} {ix : ℕ} {tol : ℚ}
    (h0 : ∀ c ∈ iso0, c.rotatedList ≠ [])
    (hrot : ∀ c ∈ iso1, ∀ bp, gb.points[ix]? = some bp → c.rotation < bp.length)
    (hv0 : ∀ v ∈ m0v, v.length = 6) (hv1 : ∀ v ∈ m1v, v.length = 6) :
    ∃ s, testStartingPoint ops gb iso0 iso1 m0v m1v ix tol = some s := by
  simp only [testStartingPoint]
  split
  · exact ⟨none, rfl⟩
  next c0 heq0 =>
    split
    · exact ⟨none, rfl⟩
    next mi mc heqm =>
      split
      · exact ⟨none, rfl⟩
      next fc0 heqf =>
        split
        · exact ⟨none, rfl⟩
        next cmin heqc =>
          split
          · split
            · exact ⟨none, rfl⟩
            next bpts heqb =>
              split
              next heqS =>
                exfalso
                have hcm : cmin ∈ iso1 := List.getElem?_mem heqc
                have hlt := hrot cmin hcm bpts heqb
                split at heqS
                · exact Option.noConfusion heqS
                · split at heqS
                  · exact Option.noConfusion heqS
                  · split at heqS
                    · exact Option.noConfusion heqS
                    · omega
              next heqS => exact ⟨_, rfl⟩
              next heqS =>
                split
                · exact ⟨none, rfl⟩
                next v0 heqv0 =>
                  split
                  · exact ⟨none, rfl⟩
                  next v1 heqv1 =>
                    obtain ⟨t0, ht0⟩ :=
                      mkTransform_some ops v0 (hv0 v0 (List.getElem?_mem heqv0))
                    obtain ⟨t1, ht1⟩ :=
                      mkTransform_some ops v1 (hv1 v1 (List.getElem?_mem heqv1))
                    simp only [ht0, ht1]
                    cases hrl : c0.rotatedList with
                    | nil => exact absurd hrl (h0 c0 (List.getElem?_mem heq0))
                    | cons x rest =>
                      simp only [hrl]
                      split
                      · exact ⟨none, rfl⟩
                      next fc1 heqf1 =>
                        split
                        · exact ⟨none, rfl⟩
                        next mi1 mc1 heqm1 => exact ⟨_, rfl⟩
          · exact ⟨_, rfl⟩


theorem sp_mono {ops : RealOps} {gb : Glyph} {iso0 iso1 : Isomorphisms}
    {m0v m1v : List (List ℚ)} {ix : ℕ} {t1 t2 : ℚ}
    (h12 : t1 ≤ t2) (ht2 : t2 ≤ 1) {r : ℚ} {pp : ℕ} {rv : Bool}
    (h1 : testStartingPoint ops gb iso0 iso1 m0v m1v ix t1 = some (some (r, pp, rv)))
    (hr : r < t1) :
    testStartingPoint ops gb iso0 iso1 m0v m1v ix t2 = some (some (r, pp, rv)) := by
  simp only [testStartingPoint] at h1 ⊢
  split at h1
  · simp at h1
  next c0 heq0 =>
    split at h1
    · simp at h1
    next mi mc heqm =>
      split at h1
      · simp at h1
      next fc0 heqf =>
        split at h1
        · simp at h1
        next cmin heqc =>
          have hfcnn : 0 ≤ fc0 := by
            have hmem := List.getElem?_mem heqf
            obtain ⟨c, _, hc⟩ := List.mem_map.1 hmem
            rw [← hc]
            exact vdiffV_nonneg _ _
          by_cases hg1 : mc < fc0 * t1
          · rw [if_pos hg1] at h1
            have hg2 : mc < fc0 * t2 :=
              lt_of_lt_of_le hg1 (mul_le_mul_of_nonneg_left h12 hfcnn)
            rw [if_pos hg2]
            split at h1
            · simp at h1
            next bpts heqb =>
              split at h1
              · simp at h1
              next heqS => exact h1
              next heqS =>
                split at h1
                · simp at h1
                next v0 heqv0 =>
                  split at h1
                  · simp at h1
                  next v1 heqv1 =>
                    split at h1
                    next tr0 tr1 heqt0 heqt1 =>
                      split at h1
                      · simp at h1
                      next x rest heqrl =>
                        split at h1
                        · simp at h1
                        next fc1 heqf1 =>
                          split at h1
                          · simp at h1
                          next mi1 mc1 heqm1 => exact h1
                    next hcatch => simp at h1
          · rw [if_neg hg1] at h1
            exfalso
            have h2 := Option.some.inj (Option.some.inj h1)
            simp only [Prod.mk.injEq] at h2
            obtain ⟨hre, -, -⟩ := h2
            by_cases hfz : fc0 = 0
            · rw [← hre, hfz, spTol_zero] at hr
              linarith
            · have hfpos : 0 < fc0 := lt_of_le_of_ne hfcnn (Ne.symm hfz)
              rw [← hre, spTol, if_pos hfz, div_lt_iff₀ hfpos] at hr
              exact hg1 (by rw [mul_comm]; exact hr)


theorem sp_self_some {ops : RealOps} {gb : Glyph} {iso : Isomorphisms}
    {m0v m1v : List (List ℚ)} {ix : ℕ} {tol : ℚ} :
    ∃ s, testStartingPoint ops gb iso iso m0v m1v ix tol = some s := by
  simp only [testStartingPoint]
  split
  · exact ⟨none, rfl⟩
  next c0 heq0 =>
    split
    · exact ⟨none, rfl⟩
    next mi mc heqm =>
      split
      · exact ⟨none, rfl⟩
      next fc0 heqf =>
        split
        · exact ⟨none, rfl⟩
        next cmin heqc =>
          have hfc0 : fc0 = 0 := by
            rw [List.getElem?_map, heq0] at heqf
            simp at heqf
            rw [← heqf]
            exact vdiffV_self _
          have hmc0 : 0 ≤ mc := by
            have hmem := minByIdx_mem heqm
            simp only at hmem
            obtain ⟨c, _, hc⟩ := List.mem_map.1 hmem
            rw [← hc]
            exact vdiffV_nonneg _ _
          rw [if_neg (by rw [hfc0, zero_mul]; exact not_lt.2 hmc0)]
          exact ⟨_, rfl⟩

theorem perContour_self {ops : RealOps} {ga gb : Glyph} {m0v : List (List ℚ)}
    {mids : List (Option BezPath)} {pts : List (List GlyfPoint)} {tol : ℚ}
    {kk : Option ℚ} {up : Option ℕ} {ix : ℕ} {c : Isomorphisms}
    {P : List GlyfPoint}
    (hd : mids.length ≤ m0v.length) (hv : ∀ v ∈ m0v, v ≠ [])
    (hP : pts[ix]? = some P) (htol : tol ≤ 1) :
    perContour ops ga gb m0v m0v mids pts pts tol kk up ix c c = some [] := by
  by_cases hc : c.length = 0
  · simp [perContour, hc]
  · obtain ⟨s, hs⟩ := @sp_self_some ops gb c m0v m0v ix tol
    have hnp := sp_self_no_push htol hs
    simp only [perContour, hs, hP, testKink_self]
    rw [if_neg (by simp [hc])]
    have hsp : (match s with
        | some (t, pp, rev) =>
          if t < tol then [Problem.mkWrongStartPoint ga gb t ix pp rev] else []
        | none => ([] : List Problem)) = [] := by
      cases s with
      | none => rfl
      | some trip =>
        obtain ⟨t, pp, rev⟩ := trip
        simp [hnp t pp rev rfl]
    rw [hsp]
    have hw : (match mids[ix]? with
        | some (some mid) =>
          match m0v[ix]?, m0v[ix]? with
          | some v0, some v1 => testOverUnderweight ops ga gb v0 v1 mid tol ix
          | _, _ => none
        | _ => some ([] : List Problem)) = some [] := by
      cases hmids : mids[ix]? with
      | none => rfl
      | some midOpt =>
        cases midOpt with
        | none => rfl
        | some mid =>
          have hlt : ix < m0v.length := by
            have := (List.getElem?_eq_some_iff.1 hmids).1
            omega
          rw [List.getElem?_eq_getElem hlt]
          have hne := hv m0v[ix] (List.getElem_mem hlt)
          have h0lt : 0 < m0v[ix].length := List.length_pos.2 hne
          exact weight_self (List.getElem?_eq_getElem h0lt)
    rw [hw]
    rfl


/-- C2: run_tests on two identical glyph summaries returns the empty
problem list, for every operation bundle, every well-formed glyph and
every kinkiness and upem setting, provided the tolerance setting lies in
the spec's tolerance domain (at most 1).  Basic compatibility is trivially
clean, the contour-order matching equals the identity assignment, the
starting-point ratio is 1, the weight gate sees equal signs, and every
kink candidate is rejected at the handle-ratio guard. -/
theorem C2_run_tests_identity (ops : RealOps) (g : Glyph)
    (tolerance kinkiness : Option ℚ) (upem : Option ℕ)
    (hwf : GlyphWF g) (htol : tolerance.getD (19 / 20) ≤ 1) :
    runTests ops g g tolerance kinkiness upem = some [] := by
  obtain ⟨hg, hcv, hp, hi, hv6, hc6, hzip⟩ := hwf
  simp only [runTests, testCompatibility_self, testContourOrder_self, ne_eq,
    not_true_eq_false, if_false]
  rw [loopContours_nilAll]
  · rfl
  · intro j c0 c1 hj
    obtain ⟨h0, h1⟩ := List.getElem?_zip_eq_some.1 hj
    have hcc : c0 = c1 := by
      rw [h0] at h1
      exact Option.some.inj h1
    subst hcc
    have hjlt : j < g.isomorphisms.length := (List.getElem?_eq_some_iff.1 h0).1
    have hjp : j < g.points.length := by omega
    rw [Nat.zero_add]
    exact perContour_self
      (by rw [List.length_zipWith]; omega)
      (fun v hv => by have := hv6 v hv; intro hnil; rw [hnil] at this; simp at this)
      (List.getElem?_eq_getElem hjp) htol

/-- Witness for C2 at a concrete well-formed one-contour glyph with the
default settings. -/
theorem C2_run_tests_identity_witness :
    GlyphWF gOne ∧ (none : Option ℚ).getD (19 / 20) ≤ 1 ∧
      runTests ops0 gOne gOne none none none = some [] :=
  ⟨by decide, by norm_num, C2_run_tests_identity ops0 gOne none none none
    (by decide) (by norm_num)⟩


theorem perContour_mem {ops : RealOps} {ga gb : Glyph} {m0v m1v : List (List ℚ)}
    {mids : List (Option BezPath)} {m0pts m1pts : List (List GlyfPoint)}
    {tol : ℚ} {kk : Option ℚ} {up : Option ℕ} {ix : ℕ} {c0 c1 : Isomorphisms}
    {l : List Problem} {p : Problem}
    (h : perContour ops ga gb m0v m1v mids m0pts m1pts tol kk up ix c0 c1 = some l)
    (hp : p ∈ l) :
    p.contour = some ix ∧ contourLoopKind p.details = true := by
  simp only [perContour] at h
  split at h
  · rcases Option.some.inj h with rfl
    simp at hp
  · cases hs : testStartingPoint ops gb c0 c1 m0v m1v ix tol with
    | none =>
      simp only [hs] at h
      exact Option.noConfusion h
    | some s =>
      simp only [hs] at h
      cases hmids : mids[ix]? with
      | none =>
        simp only [hmids] at h
        cases hp0 : m0pts[ix]? with
        | none =>
          simp only [hp0] at h
          exact Option.noConfusion h
        | some P0 =>
          cases hp1 : m1pts[ix]? with
          | none =>
            simp only [hp0, hp1] at h
            exact Option.noConfusion h
          | some P1 =>
            simp only [hp0, hp1] at h
            rcases Option.some.inj h with rfl
            rcases List.mem_append.1 hp with hp | hp
            · rcases List.mem_append.1 hp with hp | hp
              · cases s with
                | none => simp at hp
                | some trip =>
                  obtain ⟨t, pp, rv⟩ := trip
                  simp only at hp
                  split at hp
                  · rcases List.mem_singleton.1 hp with rfl
                    exact ⟨rfl, rfl⟩
                  · simp at hp
              · simp at hp
            · have hkk := testKink_mem hp
              exact ⟨hkk.2, by rw [hkk.1]; rfl⟩
      | some mo =>
        cases mo with
        | none =>
          simp only [hmids] at h
          cases hp0 : m0pts[ix]? with
          | none =>
          simp only [hp0] at h
          exact Option.noConfusion h
          | some P0 =>
            cases hp1 : m1pts[ix]? with
            | none =>
            simp only [hp0, hp1] at h
            exact Option.noConfusion h
            | some P1 =>
              simp only [hp0, hp1] at h
              rcases Option.some.inj h with rfl
              rcases List.mem_append.1 hp with hp | hp
              · rcases List.mem_append.1 hp with hp | hp
                · cases s with
                  | none => simp at hp
                  | some trip =>
                    obtain ⟨t, pp, rv⟩ := trip
                    simp only at hp
                    split at hp
                    · rcases List.mem_singleton.1 hp with rfl
                      exact ⟨rfl, rfl⟩
                    · simp at hp
                · simp at hp
              · have hkk := testKink_mem hp
                exact ⟨hkk.2, by rw [hkk.1]; rfl⟩
        | some mid =>
          simp only [hmids] at h
          cases hv0 : m0v[ix]? with
          | none =>
            simp only [hv0] at h
            exact Option.noConfusion h
          | some v0 =>
            cases hv1 : m1v[ix]? with
            | none =>
              simp only [hv0, hv1] at h
              exact Option.noConfusion h
            | some v1 =>
              simp only [hv0, hv1] at h
              cases hwt : testOverUnderweight ops ga gb v0 v1 mid tol ix with
              | none =>
                simp only [hwt] at h
                exact Option.noConfusion h
              | some w =>
                simp only [hwt] at h
                cases hp0 : m0pts[ix]? with
                | none =>
          simp only [hp0] at h
          exact Option.noConfusion h
                | some P0 =>
                  cases hp1 : m1pts[ix]? with
                  | none =>
            simp only [hp0, hp1] at h
            exact Option.noConfusion h
                  | some P1 =>
                    simp only [hp0, hp1] at h
                    rcases Option.some.inj h with rfl
                    rcases List.mem_append.1 hp with hp | hp
                    · rcases List.mem_append.1 hp with hp | hp
                      · cases s with
                        | none => simp at hp
                        | some trip =>
                          obtain ⟨t, pp, rv⟩ := trip
                          simp only at hp
                          split at hp
                          · rcases List.mem_singleton.1 hp with rfl
                            exact ⟨rfl, rfl⟩
                          · simp at hp
                      · have := weight_mem hwt hp
                        exact ⟨this.1, this.2.2⟩
                    · have hkk := testKink_mem hp
                      exact ⟨hkk.2, by rw [hkk.1]; rfl⟩


theorem perContour_some {ops : RealOps} {ga gb : Glyph} {m0v m1v : List (List ℚ)}
    {mids : List (Option BezPath)} {m0pts m1pts : List (List GlyfPoint)}
    {tol : ℚ} {kk : Option ℚ} {up : Option ℕ} {ix : ℕ} {c0 c1 : Isomorphisms}
    (hsp : ∃ s, testStartingPoint ops gb c0 c1 m0v m1v ix tol = some s)
    (hm0 : ∀ v ∈ m0v, v.length = 6) (hm1 : ∀ v ∈ m1v, v.length = 6)
    (hd0 : mids.length ≤ m0v.length) (hd1 : mids.length ≤ m1v.length)
    (hq0 : ix < m0pts.length) (hq1 : ix < m1pts.length) :
    ∃ l, perContour ops ga gb m0v m1v mids m0pts m1pts tol kk up ix c0 c1 = some l := by
  by_cases hc : c0.length = 0 ∨ c1.length ≠ c1.length
  · exact ⟨[], by simp only [perContour, if_pos hc]⟩
  · obtain ⟨s, hs⟩ := hsp
    simp only [perContour, hs, if_neg hc]
    have hw : ∃ w, (match mids[ix]? with
        | some (some mid) =>
          match m0v[ix]?, m1v[ix]? with
          | some v0, some v1 => testOverUnderweight ops ga gb v0 v1 mid tol ix
          | _, _ => none
        | _ => some ([] : List Problem)) = some w := by
      cases hmids : mids[ix]? with
      | none => exact ⟨[], rfl⟩
      | some mo =>
        cases mo with
        | none => exact ⟨[], rfl⟩
        | some mid =>
          have hlt : ix < mids.length := (List.getElem?_eq_some_iff.1 hmids).1
          have hlt0 : ix < m0v.length := by omega
          have hlt1 : ix < m1v.length := by omega
          rw [List.getElem?_eq_getElem hlt0, List.getElem?_eq_getElem hlt1]
          have h60 := hm0 _ (List.getElem_mem hlt0)
          have h61 := hm1 _ (List.getElem_mem hlt1)
          exact weight_some (List.getElem?_eq_getElem (by omega))
            (List.getElem?_eq_getElem (by omega))
    obtain ⟨w, hww⟩ := hw
    rw [hww, List.getElem?_eq_getElem hq0, List.getElem?_eq_getElem hq1]
    exact ⟨_, rfl⟩

theorem perContour_mono {ops : RealOps} {ga gb : Glyph} {m0v m1v : List (List ℚ)}
    {mids : List (Option BezPath)} {m0pts m1pts : List (List GlyfPoint)}
    {kk : Option ℚ} {up : Option ℕ} {ix : ℕ} {c0 c1 : Isomorphisms} {t1 t2 : ℚ}
    (hsq : ∀ x : ℚ, 0 ≤ x → 0 ≤ ops.sqrtF x) (h0 : 0 < t1) (h12 : t1 ≤ t2)
    (ht2 : t2 ≤ 1) {l1 l2 : List Problem}
    (h1 : perContour ops ga gb m0v m1v mids m0pts m1pts t1 kk up ix c0 c1 = some l1)
    (h2 : perContour ops ga gb m0v m1v mids m0pts m1pts t2 kk up ix c0 c1 = some l2)
    {p : Problem} (hp : p ∈ l1) (hk : tolGatedKind p.details = true) : p ∈ l2 := by
  simp only [perContour] at h1 h2
  by_cases hc : c0.length = 0 ∨ c1.length ≠ c1.length
  · rw [if_pos hc] at h1
    rcases Option.some.inj h1 with rfl
    simp at hp
  · rw [if_neg hc] at h1 h2
    cases hs1 : testStartingPoint ops gb c0 c1 m0v m1v ix t1 with
    | none =>
      simp only [hs1] at h1
      exact Option.noConfusion h1
    | some s1 =>
      simp only [hs1] at h1
      cases hs2 : testStartingPoint ops gb c0 c1 m0v m1v ix t2 with
      | none =>
        simp only [hs2] at h2
        exact Option.noConfusion h2
      | some s2 =>
        simp only [hs2] at h2
        have hspStep : ∀ q ∈ (match s1 with
            | some (t, pp, rev) =>
              if t < t1 then [Problem.mkWrongStartPoint ga gb t ix pp rev] else []
            | none => ([] : List Problem)),
            q ∈ (match s2 with
            | some (t, pp, rev) =>
              if t < t2 then [Problem.mkWrongStartPoint ga gb t ix pp rev] else []
            | none => ([] : List Problem)) := by
          intro q hq
          cases s1 with
          | none => simp at hq
          | some trip =>
            obtain ⟨r, pp, rv⟩ := trip
            simp only at hq
            split at hq
            · rename_i hrt1
              rcases List.mem_singleton.1 hq with rfl
              have hs2' := sp_mono h12 ht2 hs1 hrt1
              rw [hs2] at hs2'
              rcases Option.some.inj hs2' with rfl
              simp only
              rw [if_pos (lt_of_lt_of_le hrt1 h12)]
              exact List.mem_singleton.2 rfl
            · simp at hq
        cases hmids : mids[ix]? with
        | none =>
          simp only [hmids] at h1 h2
          cases hp0 : m0pts[ix]? with
          | none =>
            simp only [hp0] at h1
            exact Option.noConfusion h1
          | some P0 =>
            cases hp1 : m1pts[ix]? with
            | none =>
              simp only [hp0, hp1] at h1
              exact Option.noConfusion h1
            | some P1 =>
              simp only [hp0, hp1] at h1 h2
              rcases Option.some.inj h1 with rfl
              rcases Option.some.inj h2 with rfl
              rcases List.mem_append.1 hp with hp | hp
              · rcases List.mem_append.1 hp with hp | hp
                · exact List.mem_append_left _ (List.mem_append_left _ (hspStep p hp))
                · simp at hp
              · have hkk := testKink_mem hp
                rw [hkk.1] at hk
                exact absurd hk (by simp [tolGatedKind])
        | some mo =>
          cases mo with
          | none =>
            simp only [hmids] at h1 h2
            cases hp0 : m0pts[ix]? with
            | none =>
              simp only [hp0] at h1
              exact Option.noConfusion h1
            | some P0 =>
              cases hp1 : m1pts[ix]? with
              | none =>
                simp only [hp0, hp1] at h1
                exact Option.noConfusion h1
              | some P1 =>
                simp only [hp0, hp1] at h1 h2
                rcases Option.some.inj h1 with rfl
                rcases Option.some.inj h2 with rfl
                rcases List.mem_append.1 hp with hp | hp
                · rcases List.mem_append.1 hp with hp | hp
                  · exact List.mem_append_left _ (List.mem_append_left _ (hspStep p hp))
                  · simp at hp
                · have hkk := testKink_mem hp
                  rw [hkk.1] at hk
                  exact absurd hk (by simp [tolGatedKind])
          | some mid =>
            simp only [hmids] at h1 h2
            cases hv0 : m0v[ix]? with
            | none =>
              simp only [hv0] at h1
              exact Option.noConfusion h1
            | some v0 =>
              cases hv1 : m1v[ix]? with
              | none =>
                simp only [hv0, hv1] at h1
                exact Option.noConfusion h1
              | some v1 =>
                simp only [hv0, hv1] at h1 h2
                cases hwt1 : testOverUnderweight ops ga gb v0 v1 mid t1 ix with
                | none =>
                  simp only [hwt1] at h1
                  exact Option.noConfusion h1
                | some w1 =>
                  simp only [hwt1] at h1
                  cases hwt2 : testOverUnderweight ops ga gb v0 v1 mid t2 ix with
                  | none =>
                    simp only [hwt2] at h2
                    exact Option.noConfusion h2
                  | some w2 =>
                    simp only [hwt2] at h2
                    cases hp0 : m0pts[ix]? with
                    | none =>
                      simp only [hp0] at h1
                      exact Option.noConfusion h1
                    | some P0 =>
                      cases hp1 : m1pts[ix]? with
                      | none =>
                        simp only [hp0, hp1] at h1
                        exact Option.noConfusion h1
                      | some P1 =>
                        simp only [hp0, hp1] at h1 h2
                        rcases Option.some.inj h1 with rfl
                        rcases Option.some.inj h2 with rfl
                        rcases List.mem_append.1 hp with hp | hp
                        · rcases List.mem_append.1 hp with hp | hp
                          · exact List.mem_append_left _
                              (List.mem_append_left _ (hspStep p hp))
                          · exact List.mem_append_left _ (List.mem_append_right _
                              (weight_mono hsq h0 h12 hwt1 hwt2 hp))
                        · have hkk := testKink_mem hp
                          rw [hkk.1] at hk
                          exact absurd hk (by simp [tolGatedKind])


theorem negFirstAll_some {l : List (List ℚ)} (h : ∀ v ∈ l, v ≠ []) :
    ∃ r, negFirstAll l = some r ∧ r.length = l.length := by
  induction l with
  | nil => exact ⟨[], rfl, rfl⟩
  | cons v rest ih =>
    obtain ⟨r, hr, hrl⟩ := ih (fun w hw => h w (List.mem_cons_of_mem _ hw))
    have hv := h v (List.mem_cons_self _ _)
    cases v with
    | nil => exact absurd rfl hv
    | cons x xs =>
      refine ⟨((-x) :: xs) :: r, ?_, by simp [hrl]⟩
      simp only [negFirstAll, negFirst, hr]

theorem matchingForVectors_matching {m0 m1 : List (List ℚ)} {m : List (ℕ × ℕ)}
    {mc ic : ℚ} (h : matchingForVectors m0 m1 = some (m, mc, ic)) :
    m = bruteAssignment m0.length (fun i j => vdiffQ (m0.getD i []) (m1.getD j [])) := by
  unfold matchingForVectors at h
  split at h
  · exact absurd h (by simp)
  · simp only [Option.some.injEq, Prod.mk.injEq] at h
    exact h.1.symm

theorem testContourOrder_some {a b : Glyph}
    (hc : a.controlVectors.length = b.controlVectors.length)
    (hg : a.greenVectors.length = b.greenVectors.length)
    (hbc : ∀ v ∈ b.controlVectors, v ≠ [])
    (hbg : ∀ v ∈ b.greenVectors, v ≠ []) :
    ∃ r, testContourOrder a b = some r := by
  by_cases hn : a.controlVectors.length ≤ 1
  · exact ⟨(1, none), by simp [testContourOrder, hn]⟩
  · obtain ⟨rc, hrc, hrcl⟩ := negFirstAll_some hbc
    obtain ⟨rg, hrg, hrgl⟩ := negFirstAll_some hbg
    simp only [testContourOrder, if_neg hn, matchingForVectors_eq hc,
      matchingForVectors_eq hg, hrc, hrg,
      matchingForVectors_eq (show a.controlVectors.length = rc.length by omega),
      matchingForVectors_eq (show a.greenVectors.length = rg.length by omega)]
    split
    · exact ⟨_, rfl⟩
    · split
      · exact ⟨_, rfl⟩
      · split
        · exact ⟨_, rfl⟩
        · split
          · exact ⟨_, rfl⟩
          · exact ⟨_, rfl⟩

theorem testContourOrder_shape {a b : Glyph} {t : ℚ} {m : List (ℕ × ℕ)}
    (hgc : a.greenVectors.length = a.controlVectors.length)
    (h : testContourOrder a b = some (t, some m)) :
    ∃ σ, m = (List.range a.controlVectors.length).zip σ ∧
      σ.length = a.controlVectors.length := by
  unfold testContourOrder at h
  by_cases hn : a.controlVectors.length ≤ 1
  · rw [if_pos hn] at h
    simp at h
  · rw [if_neg hn] at h
    cases h1 : matchingForVectors a.controlVectors b.controlVectors with
    | none => rw [h1] at h; exact Option.noConfusion h
    | some trip1 =>
      obtain ⟨mc, mcc, icc⟩ := trip1
      rw [h1] at h
      simp only at h
      by_cases he1 : mcc = icc
      · rw [if_pos he1] at h; simp at h
      · rw [if_neg he1] at h
        cases h2 : matchingForVectors a.greenVectors b.greenVectors with
        | none => rw [h2] at h; exact Option.noConfusion h
        | some trip2 =>
          obtain ⟨mg, mcg, icg⟩ := trip2
          rw [h2] at h
          simp only at h
          by_cases he2 : mcg = icg
          · rw [if_pos he2] at h; simp at h
          · rw [if_neg he2] at h
            cases h3 : negFirstAll b.controlVectors with
            | none => rw [h3] at h; exact Option.noConfusion h
            | some g2cr =>
              rw [h3] at h
              simp only at h
              cases h4 : matchingForVectors a.controlVectors g2cr with
              | none => rw [h4] at h; exact Option.noConfusion h
              | some trip4 =>
                obtain ⟨m4, mccr, iccr⟩ := trip4
                rw [h4] at h
                simp only at h
                by_cases he4 : mccr = iccr
                · rw [if_pos he4] at h; simp at h
                · rw [if_neg he4] at h
                  cases h5 : negFirstAll b.greenVectors with
                  | none => rw [h5] at h; exact Option.noConfusion h
                  | some g2gr =>
                    rw [h5] at h
                    simp only at h
                    cases h6 : matchingForVectors a.greenVectors g2gr with
                    | none => rw [h6] at h; exact Option.noConfusion h
                    | some trip6 =>
                      obtain ⟨m6, mcgr, icgr⟩ := trip6
                      rw [h6] at h
                      simp only at h
                      by_cases he6 : mcgr = icgr
                      · rw [if_pos he6] at h; simp at h
                      · rw [if_neg he6] at h
                        simp only [Option.some.injEq, Prod.mk.injEq] at h
                        obtain ⟨-, hm2⟩ := h
                        by_cases hcond : mcc / icc < mcg / icg
                        · rw [if_pos hcond] at hm2
                          simp only at hm2
                          rw [← hm2, matchingForVectors_matching h1, bruteAssignment]
                          exact ⟨_, rfl, bestPerm_length _ _⟩
                        · rw [if_neg hcond] at hm2
                          simp only at hm2
                          rw [← hm2, matchingForVectors_matching h2, bruteAssignment]
                          refine ⟨bestPerm a.greenVectors.length
                            (fun i j => vdiffQ (a.greenVectors.getD i [])
                              (b.greenVectors.getD j [])), ?_, ?_⟩
                          · rw [hgc]
                          · rw [bestPerm_length, hgc]


/-- C4: run_tests is total on well-formed glyph pairs: the basic
compatibility stage either exits early or certifies equal contour and
point counts, after which the assignment solves, the descriptor and point
indexing, and in particular the unsigned subtraction num_points - leeway
in the starting-point rescue branch (reached only when the proposed
rotation exceeds the leeway, which bounds the point count from below) can
never abort the computation. -/
theorem C4_run_tests_total (ops : RealOps) (ga gb : Glyph)
    (tolerance kinkiness : Option ℚ) (upem : Option ℕ)
    (ha : GlyphWF ga) (hb : GlyphWF gb) :
    ∃ ps, runTests ops ga gb tolerance kinkiness upem = some ps := by
  by_cases hbase : testCompatibility ga gb = []
  case neg =>
    refine ⟨testCompatibility ga gb, ?_⟩
    simp only [runTests]
    rw [if_pos hbase]
  case pos =>
    obtain ⟨hag, hac, hap, hai, hav6, hac6, hazip⟩ := ha
    obtain ⟨hbg, hbc, hbp, hbi, hbv6, hbc6, hbzip⟩ := hb
    have hcur := testCompatibility_nil_curves hbase
    have hcv : ga.controlVectors.length = gb.controlVectors.length := by omega
    have hgv : ga.greenVectors.length = gb.greenVectors.length := by omega
    have hbcne : ∀ v ∈ gb.controlVectors, v ≠ [] := fun v hv => by
      have h6 := hbc6 v hv
      intro hnil
      rw [hnil] at h6
      simp at h6
    have hbgne : ∀ v ∈ gb.greenVectors, v ≠ [] := fun v hv => by
      have h6 := hbv6 v hv
      intro hnil
      rw [hnil] at h6
      simp at h6
    obtain ⟨r, hco⟩ := testContourOrder_some hcv hgv hbcne hbgne
    obtain ⟨t, mOpt⟩ := r
    have hloop : ∃ ps, loopContours ops ga gb ga.greenVectors gb.greenVectors
        (List.zipWith lerpCurve ga.curves gb.curves) ga.points gb.points
        (tolerance.getD (19 / 20)) kinkiness upem 0
        (ga.isomorphisms.zip gb.isomorphisms) = some ps := by
      apply loopContours_some
      intro j c0 c1 hj
      rw [Nat.zero_add]
      obtain ⟨hj0, hj1⟩ := List.getElem?_zip_eq_some.1 hj
      have hjlt0 : j < ga.isomorphisms.length := (List.getElem?_eq_some_iff.1 hj0).1
      have hjlt1 : j < gb.isomorphisms.length := (List.getElem?_eq_some_iff.1 hj1).1
      have hjpa : j < ga.points.length := by omega
      have hjpb : j < gb.points.length := by omega
      have hpair0 : (c0, ga.points[j]) ∈ ga.isomorphisms.zip ga.points := by
        apply List.getElem?_mem (n := j)
        rw [List.getElem?_zip_eq_some]
        exact ⟨hj0, List.getElem?_eq_getElem hjpa⟩
      have hpair1 : (c1, gb.points[j]) ∈ gb.isomorphisms.zip gb.points := by
        apply List.getElem?_mem (n := j)
        rw [List.getElem?_zip_eq_some]
        exact ⟨hj1, List.getElem?_eq_getElem hjpb⟩
      have hz0 := hazip _ hpair0
      have hz1 := hbzip _ hpair1
      apply perContour_some
      · apply sp_some
        · intro c hcmem
          exact (hz0.1 c hcmem).1
        · intro c hcmem bp hbp
          have hbp2 : bp = gb.points[j] := by
            rw [List.getElem?_eq_getElem hjpb] at hbp
            exact (Option.some.inj hbp).symm
          rw [hbp2]
          exact (hz1.1 c hcmem).2
        · exact hav6
        · exact hbv6
      · exact hav6
      · exact hbv6
      · rw [List.length_zipWith]; omega
      · rw [List.length_zipWith]; omega
      · omega
      · omega
    obtain ⟨lp, hlp⟩ := hloop
    cases hm : mOpt with
    | none =>
      rw [hm] at hco
      refine ⟨[] ++ lp, ?_⟩
      simp only [runTests, if_neg (not_ne_iff.mpr hbase), hco, hlp]
    | some m =>
      rw [hm] at hco
      have hgcl : ga.greenVectors.length = ga.controlVectors.length := by omega
      obtain ⟨σ, hmshape, hσ⟩ := testContourOrder_shape hgcl hco
      have hr1 : reorderM m gb.isomorphisms = some gb.isomorphisms := by
        rw [hmshape]
        exact reorderM_ident _ hσ (by omega)
      have hr2 : reorderM m gb.greenVectors = some gb.greenVectors := by
        rw [hmshape]
        exact reorderM_ident _ hσ (by omega)
      have hr3 : reorderM m gb.curves = some gb.curves := by
        rw [hmshape]
        exact reorderM_ident _ hσ (by omega)
      have hr4 : reorderM m gb.points = some gb.points := by
        rw [hmshape]
        exact reorderM_ident _ hσ (by omega)
      refine ⟨(if t < tolerance.getD (19 / 20) then
        [Problem.mkContourOrder ga gb (tolerance.getD (19 / 20))
          (List.range m.length) (m.map Prod.snd)] else []) ++ lp, ?_⟩
      simp only [runTests, if_neg (not_ne_iff.mpr hbase), hco, hr1, hr2, hr3, hr4, hlp]


/-- Witness for C4 at a concrete well-formed pair. -/
theorem C4_run_tests_total_witness :
    GlyphWF gW9 ∧ ∃ ps, runTests ops0 gW9 gW9 none none none = some ps :=
  ⟨by decide, C4_run_tests_total ops0 gW9 gW9 none none none (by decide) (by decide)⟩

/-- C9: when a contour index has an empty isomorphism set on either side,
run_tests emits no WrongStartPoint, Overweight, Underweight or Kink
problem at that index.  For well-formed glyphs an empty isomorphism set
means an empty point list, and basic compatibility forces the other side
to be empty there too, so the loop takes the skip branch at that index. -/
theorem C9_empty_isomorphisms_skip (ops : RealOps) (ga gb : Glyph)
    (tolerance kinkiness : Option ℚ) (upem : Option ℕ) (ix : ℕ)
    (ha : GlyphWF ga) (hb : GlyphWF gb)
    (hemp : ga.isomorphisms.getD ix [] = [] ∨ gb.isomorphisms.getD ix [] = [])
    {ps : List Problem}
    (hrun : runTests ops ga gb tolerance kinkiness upem = some ps) :
    ∀ p ∈ ps, ¬ (p.contour = some ix ∧ contourLoopKind p.details = true) := by
  intro p hp hcontra
  by_cases hbase : testCompatibility ga gb = []
  case neg =>
    have hps : ps = testCompatibility ga gb := by
      simp only [runTests] at hrun
      rw [if_pos hbase] at hrun
      exact (Option.some.inj hrun).symm
    subst hps
    have hkinds := testCompatibility_kinds hp
    rw [hcontra.2] at hkinds
    exact absurd hkinds.2 (by simp)
  case pos =>
    obtain ⟨hag, hac, hap, hai, hav6, hac6, hazip⟩ := ha
    obtain ⟨hbg, hbc, hbp, hbi, hbv6, hbc6, hbzip⟩ := hb
    have hcur := testCompatibility_nil_curves hbase
    simp only [runTests, if_neg (not_ne_iff.mpr hbase)] at hrun
    cases hco : testContourOrder ga gb with
    | none =>
      rw [hco] at hrun
      exact Option.noConfusion hrun
    | some r =>
      obtain ⟨t, mOpt⟩ := r
      rw [hco] at hrun
      simp only at hrun
      have hloopCase : ∀ (co : List Problem),
          (∀ q ∈ co, q.contour = (none : Option ℕ)) →
          (match loopContours ops ga gb ga.greenVectors gb.greenVectors
              (List.zipWith lerpCurve ga.curves gb.curves) ga.points gb.points
              (tolerance.getD (19 / 20)) kinkiness upem 0
              (ga.isomorphisms.zip gb.isomorphisms) with
            | none => none
            | some lp => some (co ++ lp)) = some ps → False := by
        intro co hco2 hmatch
        cases hloop : loopContours ops ga gb ga.greenVectors gb.greenVectors
            (List.zipWith lerpCurve ga.curves gb.curves) ga.points gb.points
            (tolerance.getD (19 / 20)) kinkiness upem 0
            (ga.isomorphisms.zip gb.isomorphisms) with
        | none =>
          rw [hloop] at hmatch
          exact Option.noConfusion hmatch
        | some lp =>
          rw [hloop] at hmatch
          have hps : ps = co ++ lp := (Option.some.inj hmatch).symm
          subst hps
          rcases List.mem_append.1 hp with hpco | hplp
          · have := hco2 p hpco
            rw [this] at hcontra
            exact Option.noConfusion hcontra.1
          · obtain ⟨j, c0, c1, l, hj, hpc, hpl⟩ := loopContours_mem _ _ _ _ _ _ _ _ _ _ _
              _ _ _ hloop p hplp
            have hpm := perContour_mem hpc hpl
            have hjix : j = ix := by
              have h1 := hpm.1
              rw [hcontra.1] at h1
              have := Option.some.inj h1
              omega
            subst hjix
            obtain ⟨hj0, hj1⟩ := List.getElem?_zip_eq_some.1 hj
            have hjlt0 : j < ga.isomorphisms.length := (List.getElem?_eq_some_iff.1 hj0).1
            have hjlt1 : j < gb.isomorphisms.length := (List.getElem?_eq_some_iff.1 hj1).1
            have hjpa : j < ga.points.length := by omega
            have hjpb : j < gb.points.length := by omega
            have hc0nil : c0 = [] := by
              rcases hemp with hemp | hemp
              · simp only [List.getD_eq_getElem?_getD, hj0, Option.getD_some] at hemp
                exact hemp
              · simp only [List.getD_eq_getElem?_getD, hj1, Option.getD_some] at hemp
                have hpair1 : (c1, gb.points[j]) ∈
                    gb.isomorphisms.zip gb.points := by
                  apply List.getElem?_mem (n := j)
                  rw [List.getElem?_zip_eq_some]
                  exact ⟨hj1, List.getElem?_eq_getElem hjpb⟩
                have hz1 := hbzip _ hpair1
                have hbpts : gb.points[j] = [] := hz1.2.1 hemp
                have hlen := testCompatibility_nil_points hbase j
                  (ga.points[j]) (gb.points[j])
                  (List.getElem?_eq_getElem hjpa)
                  (List.getElem?_eq_getElem hjpb)
                have hapts : ga.points[j] = [] := by
                  rw [hbpts] at hlen
                  simpa using List.length_eq_zero.1 (by simpa using hlen)
                have hpair0 : (c0, ga.points[j]) ∈
                    ga.isomorphisms.zip ga.points := by
                  apply List.getElem?_mem (n := j)
                  rw [List.getElem?_zip_eq_some]
                  exact ⟨hj0, List.getElem?_eq_getElem hjpa⟩
                have hz0 := hazip _ hpair0
                exact hz0.2.2 hapts
            have hcond : c0.length = 0 ∨ c1.length ≠ c1.length :=
              Or.inl (by rw [hc0nil]; rfl)
            have hskip : perContour ops ga gb ga.greenVectors gb.greenVectors
                (List.zipWith lerpCurve ga.curves gb.curves) ga.points gb.points
                (tolerance.getD (19 / 20)) kinkiness upem (0 + j) c0 c1 = some [] := by
              simp only [perContour]
              rw [if_pos hcond]
            rw [hskip] at hpc
            have : l = [] := (Option.some.inj hpc).symm
            subst this
            simp at hpl
      cases hmo : mOpt with
      | none =>
        rw [hmo] at hrun
        simp only at hrun
        exact hloopCase [] (by intro q hq; simp at hq) hrun
      | some m =>
        rw [hmo] at hrun
        simp only at hrun
        have hgcl : ga.greenVectors.length = ga.controlVectors.length := by omega
        have hcoeq : testContourOrder ga gb = some (t, some m) := by rw [hco, hmo]
        obtain ⟨σ, hmshape, hσ⟩ := testContourOrder_shape hgcl hcoeq
        have hr1 : reorderM m gb.isomorphisms = some gb.isomorphisms := by
          rw [hmshape]; exact reorderM_ident _ hσ (by omega)
        have hr2 : reorderM m gb.greenVectors = some gb.greenVectors := by
          rw [hmshape]; exact reorderM_ident _ hσ (by omega)
        have hr3 : reorderM m gb.curves = some gb.curves := by
          rw [hmshape]; exact reorderM_ident _ hσ (by omega)
        have hr4 : reorderM m gb.points = some gb.points := by
          rw [hmshape]; exact reorderM_ident _ hσ (by omega)
        rw [hr1, hr2, hr3, hr4] at hrun
        simp only at hrun
        refine hloopCase _ ?_ hrun
        intro q hq
        split at hq
        · rcases List.mem_singleton.1 hq with rfl
          rfl
        · simp at hq


/-- Witness for C9 at a concrete pair whose second contour has an empty
isomorphism set. -/
theorem C9_empty_isomorphisms_skip_witness :
    GlyphWF gW9 ∧ gW9.isomorphisms.getD 1 [] = [] ∧
      ∀ p ∈ ([] : List Problem),
        ¬ (p.contour = some 1 ∧ contourLoopKind p.details = true) :=
  ⟨by decide, by decide,
   C9_empty_isomorphisms_skip ops0 gW9 gW9 none none none 1 (by decide) (by decide)
     (Or.inl (by decide)) (by with_unfolding_all rfl)⟩

/-- C10: for the tolerance-gated tests (ContourOrder, WrongStartPoint,
Overweight and Underweight) the reported problems are monotone in the
user tolerance: any such problem reported at a stricter tolerance t1 is
also present, with the same details, contour and node, at any tolerance
t2 with t1 ≤ t2 ≤ 1.  The matching, the starting-point ratios and the
weight payloads do not depend on the tolerance, and each reporting
condition is monotone in it. -/
theorem C10_tolerance_monotone (ops : RealOps) (ga gb : Glyph)
    (kinkiness : Option ℚ) (upem : Option ℕ) {t1 t2 : ℚ}
    (hsq : ∀ x : ℚ, 0 ≤ x → 0 ≤ ops.sqrtF x)
    (h0 : 0 < t1) (h12 : t1 ≤ t2) (ht2 : t2 ≤ 1)
    {ps1 ps2 : List Problem}
    (h1 : runTests ops ga gb (some t1) kinkiness upem = some ps1)
    (h2 : runTests ops ga gb (some t2) kinkiness upem = some ps2) :
    ∀ p ∈ ps1, tolGatedKind p.details = true →
      ∃ q ∈ ps2, q.details = p.details ∧ q.contour = p.contour ∧ q.node = p.node := by
  intro p hp hk
  by_cases hbase : testCompatibility ga gb = []
  case neg =>
    have hps1 : ps1 = testCompatibility ga gb := by
      simp only [runTests] at h1
      rw [if_pos hbase] at h1
      exact (Option.some.inj h1).symm
    subst hps1
    have hkk := testCompatibility_kinds hp
    rw [hk] at hkk
    exact absurd hkk.1 (by simp)
  case pos =>
    simp only [runTests, if_neg (not_ne_iff.mpr hbase), Option.getD_some] at h1 h2
    cases hco : testContourOrder ga gb with
    | none =>
      rw [hco] at h1
      exact Option.noConfusion h1
    | some r =>
      obtain ⟨ct, mOpt⟩ := r
      rw [hco] at h1 h2
      simp only at h1 h2
      cases hmd : (match mOpt with
        | some m =>
          match reorderM m gb.isomorphisms, reorderM m gb.greenVectors,
              reorderM m gb.curves, reorderM m gb.points with
          | some a, some b, some c, some dd => some (a, b, c, dd)
          | _, _, _, _ => none
        | none => some (gb.isomorphisms, gb.greenVectors, gb.curves, gb.points)) with
      | none =>
        rw [hmd] at h1
        exact Option.noConfusion h1
      | some quad =>
        obtain ⟨m1iso, m1vec, m1curves, m1pts⟩ := quad
        rw [hmd] at h1 h2
        simp only at h1 h2
        cases hl1 : loopContours ops ga gb ga.greenVectors m1vec
            (List.zipWith lerpCurve ga.curves m1curves) ga.points m1pts t1
            kinkiness upem 0 (ga.isomorphisms.zip m1iso) with
        | none =>
          rw [hl1] at h1
          exact Option.noConfusion h1
        | some lp1 =>
          rw [hl1] at h1
          cases hl2 : loopContours ops ga gb ga.greenVectors m1vec
              (List.zipWith lerpCurve ga.curves m1curves) ga.points m1pts t2
              kinkiness upem 0 (ga.isomorphisms.zip m1iso) with
          | none =>
            rw [hl2] at h2
            exact Option.noConfusion h2
          | some lp2 =>
            rw [hl2] at h2
            simp only at h1 h2
            cases hmo : mOpt with
            | none =>
              rw [hmo] at h1 h2
              simp only [List.nil_append] at h1 h2
              have hps1 : ps1 = lp1 := (Option.some.inj h1).symm
              have hps2 : ps2 = lp2 := (Option.some.inj h2).symm
              subst hps1
              subst hps2
              obtain ⟨j, c0, c1, l, hj, hpc1, hpl⟩ := loopContours_mem _ _ _ _ _ _ _ _
                _ _ _ _ _ _ hl1 p hp
              obtain ⟨l2, hpc2, hsub⟩ := loopContours_get _ _ _ _ _ _ _ _ _ _ _ _ _ _
                hl2 j c0 c1 hj
              exact ⟨p, hsub p (perContour_mono hsq h0 h12 ht2 hpc1 hpc2 hpl hk),
                rfl, rfl, rfl⟩
            | some m =>
              rw [hmo] at h1 h2
              simp only at h1 h2
              have hps1 : ps1 = (if ct < t1 then
                  [Problem.mkContourOrder ga gb t1 (List.range m.length)
                    (m.map Prod.snd)] else []) ++ lp1 := (Option.some.inj h1).symm
              have hps2 : ps2 = (if ct < t2 then
                  [Problem.mkContourOrder ga gb t2 (List.range m.length)
                    (m.map Prod.snd)] else []) ++ lp2 := (Option.some.inj h2).symm
              subst hps1
              subst hps2
              rcases List.mem_append.1 hp with hpco | hplp
              · split at hpco
                · rename_i hct1
                  rcases List.mem_singleton.1 hpco with rfl
                  refine ⟨Problem.mkContourOrder ga gb t2 (List.range m.length)
                    (m.map Prod.snd), ?_, rfl, rfl, rfl⟩
                  refine List.mem_append_left _ ?_
                  rw [if_pos (lt_of_lt_of_le hct1 h12)]
                  exact List.mem_singleton.2 rfl
                · simp at hpco
              · obtain ⟨j, c0, c1, l, hj, hpc1, hpl⟩ := loopContours_mem _ _ _ _ _ _ _
                  _ _ _ _ _ _ _ hl1 p hplp
                obtain ⟨l2, hpc2, hsub⟩ := loopContours_get _ _ _ _ _ _ _ _ _ _ _ _ _
                  _ hl2 j c0 c1 hj
                have hmem2 := perContour_mono hsq h0 h12 ht2 hpc1 hpc2 hpl hk
                exact ⟨p, List.mem_append_right _ (hsub p hmem2), rfl, rfl, rfl⟩

/-- Witness for C10 at a concrete pair with a ContourOrder problem present
at both tolerances 1/2 and 19/20. -/
theorem C10_tolerance_monotone_witness :
    runTests ops0 gaC5 gbC5 (some (1 / 2)) none none =
      some [Problem.mkContourOrder gaC5 gbC5 (1 / 2) [0, 1] [1, 0]] ∧
    runTests ops0 gaC5 gbC5 (some (19 / 20)) none none =
      some [Problem.mkContourOrder gaC5 gbC5 (19 / 20) [0, 1] [1, 0]] ∧
    ∀ p ∈ [Problem.mkContourOrder gaC5 gbC5 (1 / 2) [0, 1] [1, 0]],
      tolGatedKind p.details = true →
      ∃ q ∈ [Problem.mkContourOrder gaC5 gbC5 (19 / 20) [0, 1] [1, 0]],
        q.details = p.details ∧ q.contour = p.contour ∧ q.node = p.node :=
  ⟨by with_unfolding_all rfl, by with_unfolding_all rfl,
   @C10_tolerance_monotone ops0 gaC5 gbC5 none none (1 / 2) (19 / 20)
     (fun x h => h) (by norm_num) (by norm_num) (by norm_num)
     [Problem.mkContourOrder gaC5 gbC5 (1 / 2) [0, 1] [1, 0]]
     [Problem.mkContourOrder gaC5 gbC5 (19 / 20) [0, 1] [1, 0]]
     (by with_unfolding_all rfl) (by with_unfolding_all rfl)⟩

end Interp





